import Mathlib

/-!
Verification of the batched inference scheduler and prefix-state cache of
`ai00_rwkv_server` (`src/run.rs`), as a shallow embedding in Lean 4.

Modelling conventions:
* tokens (Rust `u16`) and bytes (`u8`) are `Nat`;
* `f32` penalty / logit / bias values are `Int`: no claim depends on
  floating-point arithmetic, only on which entries are read and written;
* the opaque model runtime (`BackedState`, `back_batch`, `load_batch`,
  `run`, `softmax`, the sampler and the tokenizer) is out of scope per the
  spec, and enters as oracle parameters (`σ` for serialized states, a
  `decode` function for the tokenizer, per-tick sampled tokens etc.);
* the `qp_trie::Trie` prefix cache is not part of this repository; its
  three operations are modelled from the spec (see `lcpLen` below) as an
  association list keyed by token sequences;
* Rust field name `prefix` is rendered `pfx` and `suffix` is rendered
  `sfx` (the literal names are unavailable here); everything else keeps
  the source names.
-/

/-- Rust `Iterator::max_by`: maximum under a comparator, the *last* of
several equally-maximal elements (fold keeping the accumulator only when
it compares `Greater`). -/
def maxBy (f : α → α → Ordering) : List α → Option α
  | [] => none
  | a :: rest => some (rest.foldl (fun acc x => if f acc x = .gt then acc else x) a)

/-- Rust `Iterator::min_by`: minimum under a comparator, the *first* of
several equally-minimal elements. -/
def minBy (f : α → α → Ordering) : List α → Option α
  | [] => none
  | a :: rest => some (rest.foldl (fun acc x => if f x acc = .lt then x else acc) a)

/-- Rust `(1..=n).rev().find(p)`: the largest `l` with `1 ≤ l ≤ n` and
`p l`, if any. -/
def findDown (p : Nat → Bool) : Nat → Option Nat
  | 0 => none
  | n + 1 => if p (n + 1) then some (n + 1) else findDown p n

/-- Length of the longest common prefix of two token sequences. -/
def commonPrefixLen : List Nat → List Nat → Nat
  | a :: as, b :: bs => if a = b then commonPrefixLen as bs + 1 else 0
  | _, _ => 0

/-! ### The prefix-state cache

`Runtime.backed : Trie<Tokens, B>` maps token sequences to serialized
model states.  `qp_trie` is an external crate; per the spec (§4.1/§4.2)
the cache is a finite map with `longest_common_prefix`, `contains_key`,
`insert` (replacing) and `remove`.  We model it as an association list
with unique keys maintained by construction. -/

/-- A prefix-state cache: keys are token sequences, values are opaque
serialized states `σ`. -/
def Cache (σ : Type) : Type := List (List Nat × σ)

/-- The list of keys stored in the cache. -/
def cacheKeys (c : Cache σ) : List (List Nat) := c.map (·.1)

/-- `Trie::contains_key`. -/
def containsKey (c : Cache σ) (k : List Nat) : Bool :=
  c.any (fun e => e.1 = k)

/-- Lookup of the value stored under key `k`. -/
def lookupC (c : Cache σ) (k : List Nat) : Option σ :=
  (c.find? (fun e => e.1 = k)).map (·.2)

/-- `Trie::remove`'s effect on the map: erase the entry keyed `k`. -/
def eraseKey (c : Cache σ) (k : List Nat) : Cache σ :=
  c.filter (fun e => ¬(e.1 = k))

/-- `Trie::insert`: store `v` under `k`, replacing any previous entry. -/
def insertC (c : Cache σ) (k : List Nat) (v : σ) : Cache σ :=
  (k, v) :: eraseKey c k

/-- Modelled from the spec: `qp_trie`'s `longest_common_prefix` (the crate
is not part of this repository).  §4.1: "return the longest byte-prefix of
`query` such that some key of the map has this prefix as a prefix (or is a
prefix of this). Must be token-aligned."  Token-aligned byte prefixes are
token prefixes, so this is the largest common-prefix length between the
query and any stored key. -/
def lcpLen (c : Cache σ) (q : List Nat) : Nat :=
  (c.map (fun e => commonPrefixLen q e.1)).foldr max 0

/-! ### Data model (`run.rs` lines 33–227) -/

/-- `FinishReason` of a generation. -/
inductive FinishReason : Type where
  | Stop
  | Length
  deriving DecidableEq, Repr

/-- `TokenCounter` sent along with `Token::Stop`. -/
structure TokenCounter : Type where
  prompt_tokens : Nat
  completion_tokens : Nat
  total_tokens : Nat
  deriving DecidableEq, Repr

/-- `Token`: the events streamed to the caller's sink. `Token::Token`
carries a string; we keep the (possibly lossily converted) bytes, since no
claim inspects the text itself. -/
inductive Token : Type where
  | Start
  | Token (word : List Nat)
  | Stop (reason : FinishReason) (counter : TokenCounter)
  | Embed (v : List Int)
  | Done
  deriving DecidableEq, Repr

/-- Sampler parameters used by the scheduler core (the `sample` function
itself is an opaque capability). -/
structure Sampler : Type where
  penalty_decay : Int
  frequency_penalty : Int
  presence_penalty : Int
  deriving DecidableEq, Repr

/-- `GenerateRequest` fields read by `run.rs`. -/
structure GenerateRequest : Type where
  stop : List (List Nat)
  max_tokens : Nat
  logit_bias : List (Nat × Int)
  embed : Bool
  sampler : Sampler
  deriving DecidableEq, Repr

/-- `GenerateContext` (run.rs:208).  `pfx`/`sfx` are the source's
`prefix`/`suffix`.  `penalties : HashMap<u16, f32>` is an association
list with unique keys; the event `sender` is dropped (events are explicit
outputs of the step functions, and disconnection an explicit input). -/
structure GenerateContextM : Type where
  prompt_tokens : List Nat
  pfx : List Nat
  sfx : List Nat
  penalties : List (Nat × Int)
  model_text : List Nat
  output_buffer : List Nat
  model_tokens : List Nat
  request : GenerateRequest
  deriving DecidableEq, Repr

/-- `SlotResult` (run.rs:34): outcome of `Runtime::queue`. -/
inductive SlotResult : Type where
  | Success (batch : Nat)
  | Fault (batch : Nat)
  | Failure (context : GenerateContextM)
  | Error
  deriving DecidableEq, Repr

/-- `SlotState` (run.rs:46).  `Instant` timestamps are `Nat`. -/
inductive SlotState : Type where
  | Idle (content : List Nat) (since : Nat)
  | Wait (context : GenerateContextM)
  | Busy
  deriving DecidableEq, Repr

/-- `Payload` (run.rs:91), parallel to the slot vector. -/
inductive Payload : Type where
  | Empty
  | Busy (context : GenerateContextM)
  | Done (context : GenerateContextM)
  deriving DecidableEq, Repr

def Payload.isEmpty : Payload → Bool
  | .Empty => true
  | _ => false

def Payload.isBusy : Payload → Bool
  | .Busy _ => true
  | _ => false

def Payload.isDone : Payload → Bool
  | .Done _ => true
  | _ => false

def SlotState.isIdle : SlotState → Bool
  | .Idle _ _ => true
  | _ => false

def SlotState.isWait : SlotState → Bool
  | .Wait _ => true
  | _ => false

def SlotState.isBusy : SlotState → Bool
  | .Busy => true
  | _ => false

/-- `SlotChoice` (run.rs:62): classification of an idle slot for an
incoming request. -/
inductive SlotChoice : Type where
  | Continue (batch : Nat) (len : Nat)
  | Back (batch : Nat)
  | Empty (batch : Nat)
  deriving DecidableEq, Repr

/-- `SlotChoice::cmp` (run.rs:68): priority `Continue > Empty > Back`,
`Continue` entries compared by reusable length. -/
def SlotChoice.cmp : SlotChoice → SlotChoice → Ordering
  | .Continue _ x, .Continue _ y => compare x y
  | .Continue _ _, _ => .gt
  | _, .Continue _ _ => .lt
  | .Empty _, .Empty _ => .eq
  | .Empty _, .Back _ => .gt
  | .Back _, .Empty _ => .lt
  | .Back _, .Back _ => .eq

/-- The slot index an admission choice refers to. -/
def SlotChoice.batch : SlotChoice → Nat
  | .Continue b _ => b
  | .Back b => b
  | .Empty b => b

/-- Rank of a choice: `SlotChoice.cmp` is the lexicographic comparison of
ranks (proved below). -/
def SlotChoice.rank : SlotChoice → Nat × Nat
  | .Back _ => (0, 0)
  | .Empty _ => (1, 0)
  | .Continue _ k => (2, k)

/-! ### Admission (`Runtime::queue`, run.rs:295–427) -/

/-- The scheduler state guarded by the two mutexes: the slot table, the
payload vector owned by the run loop, and the prefix-state cache. -/
structure SchedState (σ : Type) : Type where
  slots : List SlotState
  payloads : List Payload
  cache : Cache σ

/-- The bounded linear search of the `checkout` closure (run.rs:328–332):
from `len(longest_common_prefix)` downwards, the largest `l ≥ 1` such
that the first `l` tokens of the common prefix are an exact stored key;
`0` on miss (`unwrap_or_default`). -/
def checkoutLen (c : Cache σ) (tokens : List Nat) : Nat :=
  (findDown (fun l => containsKey c ((tokens.take (lcpLen c tokens)).take l))
    (tokens.take (lcpLen c tokens)).length).getD 0

/-- The `checkout` closure (run.rs:327–351): longest cached prefix of
`tokens`, removed and re-inserted (clone); a fresh state `freshB` on a
miss.  Returns `(prefix, reload, cache')`.  (`pfx0.take len = tokens.take
len` since `len ≤ |pfx0|` and `pfx0` is itself a `take` of `tokens`.) -/
def checkout (freshB : σ) (c : Cache σ) (tokens : List Nat) : List Nat × σ × Cache σ :=
  (tokens.take (checkoutLen c tokens),
   (lookupC c (tokens.take (checkoutLen c tokens))).getD freshB,
   if 0 < checkoutLen c tokens then
     insertC (eraseKey c (tokens.take (checkoutLen c tokens)))
       (tokens.take (checkoutLen c tokens))
       ((lookupC c (tokens.take (checkoutLen c tokens))).getD freshB)
   else eraseKey c (tokens.take (checkoutLen c tokens)))

/-- The classification of an idle slot (run.rs:315–319): match on
`(content.is_empty(), tokens.starts_with(content))`. -/
def classifySlot (b : Nat) (content : List Nat) (tokens : List Nat) : SlotChoice :=
  match content.isEmpty, content.isPrefixOf tokens with
  | true, _ => SlotChoice.Empty b
  | false, true => SlotChoice.Continue b content.length
  | false, false => SlotChoice.Back b

/-- The idle-slot candidates enumerated by `queue` (run.rs:309–322):
`(choice, delta)` pairs where `delta = time.elapsed()`, i.e. `now - since`. -/
def queueCands (now : Nat) (slots : List SlotState) (tokens : List Nat) :
    List (SlotChoice × Nat) :=
  slots.enum.filterMap fun bs =>
    match bs.2 with
    | .Idle content since => some (classifySlot bs.1 content tokens, now - since)
    | _ => none

/-- The comparator of `max_by` in `queue` (run.rs:323):
`lhs.0.cmp(&rhs.0).then(lhs.1.cmp(&rhs.1))`. -/
def cmpCand (l r : SlotChoice × Nat) : Ordering :=
  (SlotChoice.cmp l.1 r.1).then (compare l.2 r.2)

/-- The chosen slot (run.rs:309–323). -/
def queueChoice (now : Nat) (slots : List SlotState) (tokens : List Nat) :
    Option (SlotChoice × Nat) :=
  maxBy cmpCand (queueCands now slots tokens)

/-- `Runtime::queue` (run.rs:295–427).  `freshB` is the fresh initial
state built by `StateBuilder` on a cache miss; `backFn b` is the opaque
serialized state `state.back_batch(b)` would return for slot `b` (the
model runtime is an external capability).  `load_batch` has no observable
effect on the scheduler state and is omitted.  The `unreachable!()` arm of
the `Back` branch is rendered as `(.Error, s)` and proved unreachable. -/
def queueWith (freshB : σ) (backFn : Nat → σ) (now : Nat) (s : SchedState σ)
    (context : GenerateContextM) (tokens : List Nat) (last : Nat) :
    SlotResult × SchedState σ :=
  match queueChoice now s.slots tokens with
    | none =>
        (.Failure { context with pfx := [], sfx := tokens ++ [last] }, s)
    | some (.Back batch, _) =>
        let pc := checkout freshB s.cache tokens
        let tokens2 := tokens ++ [last]
        let len := pc.1.length
        let newSlot := SlotState.Wait
          { context with pfx := tokens2.take len, sfx := tokens2.drop len }
        match s.slots[batch]? with
        | some (.Idle content _) =>
            (.Fault batch,
              { s with slots := s.slots.set batch newSlot,
                       cache := insertC pc.2.2 content (backFn batch) })
        | _ => (.Error, s)
    | some (.Empty batch, _) =>
        let pc := checkout freshB s.cache tokens
        let tokens2 := tokens ++ [last]
        let len := pc.1.length
        (.Fault batch,
          { s with slots := s.slots.set batch (SlotState.Wait
              { context with pfx := tokens2.take len, sfx := tokens2.drop len }),
                   cache := pc.2.2 })
    | some (.Continue batch len, _) =>
        let tokens2 := tokens ++ [last]
        (.Success batch,
          { s with slots := s.slots.set batch (SlotState.Wait
              { context with pfx := tokens2.take len, sfx := tokens2.drop len }) })

/-- `Runtime::queue`'s entry: split off the last token (run.rs:300–303),
`Error` on empty input, otherwise the body above with
`tokens = full[:-1]` and `last = full[-1]`. -/
def queue (freshB : σ) (backFn : Nat → σ) (now : Nat) (s : SchedState σ)
    (context : GenerateContextM) : SlotResult × SchedState σ :=
  match (context.pfx ++ context.sfx).reverse with
  | [] => (.Error, s)
  | last :: revInit => queueWith freshB backFn now s context revInit.reverse last

/-! ### Stop-string scanning (run.rs:630–667) -/

/-- The inner walk of the per-stop-string scan: `psafe`/`pu` are
`pointer_safe`/`pointer_unsafe`, the first argument the part of
`output_buffer` from `pu` on. -/
def stopScanGo (stop : List Nat) : List Nat → Nat → Nat → Nat × Bool
  | [], psafe, pu => (psafe, decide (stop.length ≤ pu - psafe))
  | b :: rest, psafe, pu =>
    if stop.length ≤ pu - psafe then (psafe, true)
    else if b = stop.getD (pu - psafe) 0 then stopScanGo stop rest psafe (pu + 1)
    else stopScanGo stop rest (pu + 1) (pu + 1)

/-- The per-stop-string scan (run.rs:635–661): returns
`(pointer_safe, matched)` for one stop string over `output_buffer`. -/
def stopScan (stop buf : List Nat) : Nat × Bool := stopScanGo stop buf 0 0

/-- The comparator of `min_by` over all stop strings (run.rs:662–666). -/
def cmpStop (x y : Nat × Bool) : Ordering :=
  match x.2, y.2 with
  | true, false => .lt
  | false, true => .gt
  | _, _ => compare x.1 y.1

/-- `String::from_utf8` validity (run.rs:678): standard UTF-8 acceptance
(RFC 3629: no overlongs, no surrogates, max U+10FFFF). -/
def validUtf8 : List Nat → Bool
  | [] => true
  | b :: rest =>
    if b ≤ 0x7F then validUtf8 rest
    else if 0xC2 ≤ b ∧ b ≤ 0xDF then
      match rest with
      | c1 :: rest1 => decide (0x80 ≤ c1 ∧ c1 ≤ 0xBF) && validUtf8 rest1
      | [] => false
    else if b = 0xE0 then
      match rest with
      | c1 :: c2 :: rest1 =>
          decide (0xA0 ≤ c1 ∧ c1 ≤ 0xBF) && decide (0x80 ≤ c2 ∧ c2 ≤ 0xBF) && validUtf8 rest1
      | _ => false
    else if (0xE1 ≤ b ∧ b ≤ 0xEC) ∨ b = 0xEE ∨ b = 0xEF then
      match rest with
      | c1 :: c2 :: rest1 =>
          decide (0x80 ≤ c1 ∧ c1 ≤ 0xBF) && decide (0x80 ≤ c2 ∧ c2 ≤ 0xBF) && validUtf8 rest1
      | _ => false
    else if b = 0xED then
      match rest with
      | c1 :: c2 :: rest1 =>
          decide (0x80 ≤ c1 ∧ c1 ≤ 0x9F) && decide (0x80 ≤ c2 ∧ c2 ≤ 0xBF) && validUtf8 rest1
      | _ => false
    else if b = 0xF0 then
      match rest with
      | c1 :: c2 :: c3 :: rest1 =>
          decide (0x90 ≤ c1 ∧ c1 ≤ 0xBF) && decide (0x80 ≤ c2 ∧ c2 ≤ 0xBF) &&
            decide (0x80 ≤ c3 ∧ c3 ≤ 0xBF) && validUtf8 rest1
      | _ => false
    else if 0xF1 ≤ b ∧ b ≤ 0xF3 then
      match rest with
      | c1 :: c2 :: c3 :: rest1 =>
          decide (0x80 ≤ c1 ∧ c1 ≤ 0xBF) && decide (0x80 ≤ c2 ∧ c2 ≤ 0xBF) &&
            decide (0x80 ≤ c3 ∧ c3 ≤ 0xBF) && validUtf8 rest1
      | _ => false
    else if b = 0xF4 then
      match rest with
      | c1 :: c2 :: c3 :: rest1 =>
          decide (0x80 ≤ c1 ∧ c1 ≤ 0x8F) && decide (0x80 ≤ c2 ∧ c2 ≤ 0xBF) &&
            decide (0x80 ≤ c3 ∧ c3 ≤ 0xBF) && validUtf8 rest1
      | _ => false
    else false

/-! ### Per-slot phase-G update (run.rs:565–684) -/

/-- `HashMap::get` on the penalty map. -/
def lookupPen (ps : List (Nat × Int)) (t : Nat) : Option Int :=
  (ps.find? (fun e => e.1 = t)).map (·.2)

/-- `HashMap::insert` on the penalty map (replacing). -/
def insertPen (ps : List (Nat × Int)) (t : Nat) (v : Int) : List (Nat × Int) :=
  (t, v) :: ps.filter (fun e => ¬(e.1 = t))

/-- The `count_tokens` closure (run.rs:612–621). -/
def countTokens (context : GenerateContextM) : TokenCounter :=
  { prompt_tokens := context.prompt_tokens.length
    completion_tokens := context.model_tokens.length
    total_tokens := context.prompt_tokens.length + context.model_tokens.length }

/-- One busy slot's phase-G update (run.rs:565–684): recompute the
prefix/suffix split from the tokens the runtime consumed, decay
penalties, and if a token was sampled, account for it, scan for stop
strings and stream events.  `token` is the sampled token (phase F),
`remaining` the number of tokens the runtime left unconsumed in this
slot's `ModelInput`, `disconnected` the sink state at the emit point.
Returns the updated context, the events delivered on the sink in order,
and the `done` flag.  The two `assert!`s of the source hold whenever
`remaining ≤ |pfx ++ sfx|` and (`token` sampled → `remaining = 0`);
outside that envelope the source panics. -/
def slotUpdate (decode : Nat → List Nat) (settingStop : List (List Nat)) (disconnected : Bool)
    (context : GenerateContextM) (token : Option Nat) (remaining : Nat) :
    GenerateContextM × List Token × Bool :=
  let model_tokens := context.pfx ++ context.sfx
  let len := model_tokens.length - remaining
  let ctx1 := { context with
    pfx := model_tokens.take len
    sfx := model_tokens.drop len
    penalties := context.penalties.map
      (fun e => (e.1, e.2 * context.request.sampler.penalty_decay)) }
  match token with
  | none => (ctx1, [], false)
  | some token =>
    let ctx2 := { ctx1 with sfx := ctx1.sfx ++ [token] }
    let penalty :=
      match lookupPen ctx2.penalties token with
      | some p => p + ctx2.request.sampler.frequency_penalty
      | none => ctx2.request.sampler.presence_penalty
    let word := decode token
    let ctx3 := { ctx2 with
      penalties := insertPen ctx2.penalties token penalty
      model_text := ctx2.model_text ++ word
      output_buffer := ctx2.output_buffer ++ word
      model_tokens := ctx2.model_tokens ++ [token] }
    let scans := (ctx3.request.stop ++ settingStop).map
      (fun stop => stopScan stop ctx3.output_buffer)
    let pm := (minBy cmpStop scans).getD (ctx3.output_buffer.length, false)
    let output := ctx3.output_buffer.take pm.1
    if disconnected then (ctx3, [], true)
    else if pm.2 then
      (ctx3, [Token.Token output, Token.Stop FinishReason.Stop (countTokens ctx3),
              Token.Done], true)
    else if ctx3.request.max_tokens ≤ ctx3.model_tokens.length then
      (ctx3, [Token.Stop FinishReason.Length (countTokens ctx3), Token.Done], true)
    else if validUtf8 output then
      ({ ctx3 with output_buffer := ctx3.output_buffer.drop pm.1 },
       [Token.Token output], false)
    else (ctx3, [], false)

/-! ### Logit post-processing, phase E (run.rs:527–539) -/

/-- `data[i] = f data[i]`, or `none` for the index-out-of-bounds panic of
`data[*token as usize]`. -/
def updAt (d : List Int) (i : Nat) (f : Int → Int) : Option (List Int) :=
  if h : i < d.length then some (d.set i (f (d.get ⟨i, h⟩))) else none

/-- The penalty subtraction loop (run.rs:528–532): for every accumulated
penalty whose token is not penalty-free, `data[token] -= penalty`. -/
def applyPen (pfree : Nat → Bool) (pens : List (Nat × Int)) (d : List Int) :
    Option (List Int) :=
  (pens.filter (fun e => !pfree e.1)).foldlM
    (fun acc e => updAt acc e.1 (fun v => v - e.2)) d

/-- The logit-bias loop (run.rs:533–537): `data[token] += bias`. -/
def applyBias (bias : List (Nat × Int)) (d : List Int) : Option (List Int) :=
  bias.foldlM (fun acc e => updAt acc e.1 (fun v => v + e.2)) d

/-- Phase E for one busy slot (run.rs:527–539): penalties then bias;
`none` is the out-of-bounds panic. -/
def applyLogits (pfree : Nat → Bool) (context : GenerateContextM) (d : List Int) :
    Option (List Int) :=
  (applyPen pfree context.penalties d).bind (applyBias context.request.logit_bias)

/-! ### The penalty-free token set (run.rs:31, 266–272) -/

/-- `PENALTY_FREE_LIST` (run.rs:31): `["\n", ",", ".", "\u{002c}", "\u{002f}"]`.
`\u{002c}` is `,` again and `\u{002f}` is `/`. -/
def PENALTY_FREE_LIST : List (List Char) := [['\n'], [','], ['.'], [','], ['/']]

/-- The set computed in `Runtime::new` (run.rs:266–272).  `decodeText t`
is `String::from_utf8_lossy(tokenizer.decode(&[t]))` as a character list
(tokenizer and lossy conversion are external capabilities);
`word.contains(x)` is substring containment.  Note the source iterates
`(0..u16::MAX)`, an exclusive range: token ids `0..=65534`. -/
def penaltyFreeTokens (decodeText : Nat → List Char) : List Nat :=
  (List.range 65535).filter
    (fun token => PENALTY_FREE_LIST.any (fun x => decide (x <:+: decodeText token)))

/-! ### `Runtime::process`, phases A and B (run.rs:429–492) -/

/-- `payloads.resize_with(max_batch, Default::default)` (run.rs:434). -/
def resizePayloads (B : Nat) (ps : List Payload) : List Payload :=
  ps.take B ++ List.replicate (B - ps.length) Payload.Empty

/-- The defensive sync loop (run.rs:436–440): zero any non-empty payload
whose slot is not `Busy`. -/
def killDead (slots : List SlotState) (ps : List Payload) : List Payload :=
  List.zipWith
    (fun slot p => if !p.isEmpty && !slot.isBusy then Payload.Empty else p) slots ps

/-- The reap loop (run.rs:443–465): every `Done` payload is drained, its
slot set to `Idle(prefix, now)`, the slot's state snapshotted into the
cache under the context's prefix (`backFn b` is the opaque
`back_batch(b)` snapshot), and `Token::Embed` sent when the request has
the embed flag (`embedFn b` models `backed.embed(0, embed_layer)`).
The `assert!(matches!(slots[batch], SlotState::Busy))` holds after
`killDead` for every drained payload. -/
def reapAll (backFn : Nat → σ) (embedFn : Nat → List Int) (now : Nat) :
    Nat → List SlotState → List Payload → Cache σ →
    List SlotState × List Payload × Cache σ × List (Nat × Token)
  | _, [], ps, c => ([], ps, c, [])
  | _, s :: ss, [], c => (s :: ss, [], c, [])
  | b, slot :: ss, p :: ps, c =>
    match p with
    | .Done context =>
        let c1 := insertC c context.pfx (backFn b)
        let evs := if context.request.embed then [(b, Token.Embed (embedFn b))] else []
        let r := reapAll backFn embedFn now (b + 1) ss ps c1
        (SlotState.Idle context.pfx now :: r.1, Payload.Empty :: r.2.1, r.2.2.1,
         evs ++ r.2.2.2)
    | _ =>
        let r := reapAll backFn embedFn now (b + 1) ss ps c
        (slot :: r.1, p :: r.2.1, r.2.2.1, r.2.2.2)

/-- `count(Busy payloads)` (run.rs:468–471). -/
def countBusy (ps : List Payload) : Nat := (ps.filter Payload.isBusy).length

/-- The indices of the `Wait` slots, in slot order, starting at `b`
(specification device for the promotion loop). -/
def waitIndices : List SlotState → Nat → List Nat
  | [], _ => []
  | .Wait _ :: ss, b => b :: waitIndices ss (b + 1)
  | _ :: ss, b => waitIndices ss (b + 1)

/-- The promotion loop, phase B (run.rs:473–491): scan slots in index
order, promote each `Wait` slot (up to `remain` of them) to `Busy`,
moving its context into the payload and emitting `Token::Start`. -/
def promote : List SlotState → List Payload → Nat → Nat →
    List SlotState × List Payload × List (Nat × Token)
  | [], ps, _, _ => ([], ps, [])
  | s :: ss, [], _, _ => (s :: ss, [], [])
  | slot :: ss, p :: ps, remain, b =>
    match slot, remain with
    | .Wait context, r + 1 =>
        let rr := promote ss ps r (b + 1)
        (SlotState.Busy :: rr.1, Payload.Busy context :: rr.2.1,
         (b, Token.Start) :: rr.2.2)
    | _, _ =>
        let rr := promote ss ps remain (b + 1)
        (slot :: rr.1, p :: rr.2.1, rr.2.2)

/-- Phases A and B of `process` (run.rs:430–492), executed under the
slot-table and cache locks: resize, kill dead payloads, reap finished
slots, then promote waiting slots up to the concurrency budget.  Returns
the new state and the `(slot, event)` pairs sent, in order. -/
def processAdmit (mrb : Nat) (backFn : Nat → σ) (embedFn : Nat → List Int) (now : Nat)
    (s : SchedState σ) : SchedState σ × List (Nat × Token) :=
  let ps0 := resizePayloads s.slots.length s.payloads
  let ps1 := killDead s.slots ps0
  let r := reapAll backFn embedFn now 0 s.slots ps1 s.cache
  let occupancy := countBusy r.2.1
  let remain := mrb - min mrb occupancy
  let pr := promote r.1 r.2.1 remain 0
  ({ slots := pr.1, payloads := pr.2.1, cache := r.2.2.1 }, r.2.2.2 ++ pr.2.2)

/-- Phases C–G of `process` per payload (run.rs:494–684): each busy
payload is advanced by `slotUpdate`; `g b = (token, remaining,
disconnected)` packages the outcome of the opaque model run, softmax and
sampling for slot `b`.  `done` payloads are finalized `Busy → Done`. -/
def tailGo (decode : Nat → List Nat) (settingStop : List (List Nat))
    (g : Nat → Option Nat × Nat × Bool) :
    Nat → List Payload → List Payload × List (Nat × Token)
  | _, [] => ([], [])
  | b, p :: ps =>
    let r := tailGo decode settingStop g (b + 1) ps
    match p with
    | .Busy context =>
        let u := slotUpdate decode settingStop (g b).2.2 context (g b).1 (g b).2.1
        ((if u.2.2 then Payload.Done u.1 else Payload.Busy u.1) :: r.1,
         (u.2.1.map (fun e => (b, e))) ++ r.2)
    | _ => (p :: r.1, r.2)

/-- Phases C–G of `process` as a step on the scheduler state. -/
def processTail (decode : Nat → List Nat) (settingStop : List (List Nat))
    (g : Nat → Option Nat × Nat × Bool) (s : SchedState σ) :
    SchedState σ × List (Nat × Token) :=
  let r := tailGo decode settingStop g 0 s.payloads
  ({ s with payloads := r.1 }, r.2)

/-! ### Reachable scheduler states -/

/-- The startup state (run.rs:263–265): `B` slots, all
`Idle(empty, now)`; the run loop's payload vector, which
`payloads.resize_with(B, Default::default)` makes `B` empty payloads
before anything reads it. -/
def initState (σ : Type) (B : Nat) : SchedState σ :=
  { slots := List.replicate B (SlotState.Idle [] 0)
    payloads := List.replicate B Payload.Empty
    cache := [] }

/-- States reachable by any interleaving of `queue` calls and `process`
invocations (the latter split at its lock-release point into
`processAdmit` and `processTail`, since `queue` may interleave there).
All opaque-runtime outcomes are universally quantified oracles. -/
inductive Reachable {σ : Type} (B mrb : Nat) : SchedState σ → Prop where
  | init : Reachable B mrb (initState σ B)
  | queueStep (s : SchedState σ) (freshB : σ) (backFn : Nat → σ) (now : Nat)
      (context : GenerateContextM) : Reachable B mrb s →
      Reachable B mrb (queue freshB backFn now s context).2
  | admitStep (s : SchedState σ) (backFn : Nat → σ) (embedFn : Nat → List Int)
      (now : Nat) : Reachable B mrb s →
      Reachable B mrb (processAdmit mrb backFn embedFn now s).1
  | tailStep (s : SchedState σ) (decode : Nat → List Nat)
      (settingStop : List (List Nat)) (g : Nat → Option Nat × Nat × Bool) :
      Reachable B mrb s →
      Reachable B mrb (processTail decode settingStop g s).1

/-! ### Claim C3's coherence predicates -/

/-- Claim C3 as stated: `Busy ⇔ Payload::Busy(_)`, `Done ⇒ Busy`,
`Empty ⇒ Idle ∨ Wait`, per slot. -/
def cohereClaim (slot : SlotState) (p : Payload) : Prop :=
  (slot = SlotState.Busy ↔ p.isBusy = true) ∧
  (p.isDone = true → slot = SlotState.Busy) ∧
  (p.isEmpty = true → slot.isIdle = true ∨ slot.isWait = true)

/-- Claim C3 as stated, over a whole state (also forcing the slot and
payload tables to align index-wise). -/
def CoherentClaim (s : SchedState σ) : Prop :=
  List.Forall₂ cohereClaim s.slots s.payloads

/-- The amended coherence: a slot is `Busy` iff its payload is `Busy(_)`
or `Done(_)` (the `Done` window between phase G and the next reap keeps
the slot `Busy`). -/
def cohereAmended (slot : SlotState) (p : Payload) : Prop :=
  (slot = SlotState.Busy ↔ (p.isBusy = true ∨ p.isDone = true)) ∧
  (p.isEmpty = true → slot.isIdle = true ∨ slot.isWait = true)

/-- Amended coherence over a whole state. -/
def CoherentAmended (s : SchedState σ) : Prop :=
  List.Forall₂ cohereAmended s.slots s.payloads

/-! ### Per-request event traces (for the temporal claim) -/

/-- The events delivered on one request's sink over successive `process`
ticks while its payload is busy: each tick `t = (token, remaining,
disconnected)` drives `slotUpdate`; when the update reports `done` the
payload becomes `Done` and the next admission pass reaps it, sending
`Token::Embed` when the request asks for an embedding and the sink is
still connected (`discReap`).  `embedVec` models the embedding read from
the snapshot.  A send to a disconnected sink delivers nothing, which is
why `slotUpdate` emits no events once `disconnected` holds. -/
def runTicks (decode : Nat → List Nat) (settingStop : List (List Nat))
    (embedVec : List Int) (discReap : Bool) :
    GenerateContextM → List (Option Nat × Nat × Bool) → List Token
  | _, [] => []
  | context, t :: ticks =>
    let u := slotUpdate decode settingStop t.2.2 context t.1 t.2.1
    if u.2.2 then
      u.2.1 ++ (if u.1.request.embed && !discReap then [Token.Embed embedVec] else [])
    else
      u.2.1 ++ runTicks decode settingStop embedVec discReap u.1 ticks

/-- Whether the run reaches `done` within the given ticks. -/
def runFinishes (decode : Nat → List Nat) (settingStop : List (List Nat)) :
    GenerateContextM → List (Option Nat × Nat × Bool) → Bool
  | _, [] => false
  | context, t :: ticks =>
    let u := slotUpdate decode settingStop t.2.2 context t.1 t.2.1
    u.2.2 || runFinishes decode settingStop u.1 ticks

/-- The full delivered event stream of one admitted request:
`Token::Start` at promotion (run.rs:485, delivered unless the sink is
already disconnected, `discStart`), then the per-tick events. -/
def requestTrace (decode : Nat → List Nat) (settingStop : List (List Nat))
    (embedVec : List Int) (discStart : Bool) (context : GenerateContextM)
    (ticks : List (Option Nat × Nat × Bool)) (discReap : Bool) : List Token :=
  (if discStart then [] else [Token.Start]) ++
    runTicks decode settingStop embedVec discReap context ticks

/-- A small concrete generation context, used to instantiate theorems at
concrete inputs. -/
def exampleCtx : GenerateContextM :=
  { prompt_tokens := [], pfx := [], sfx := [9], penalties := [(1, 2)]
    model_text := [], output_buffer := [], model_tokens := []
    request :=
      { stop := [], max_tokens := 1, logit_bias := [(0, 1)], embed := false
        sampler :=
          { penalty_decay := 1, frequency_penalty := 1, presence_penalty := 1 } } }

/-- A concrete three-step run (admit a one-token request into the single
slot, promote it, finish it): its payload is `Done` while its slot is
still `Busy`, since the reap only happens on the next `process` call. -/
def doneWindowState : SchedState Nat :=
  (processTail (fun _ => []) [] (fun _ => (some 5, 0, false))
    ((processAdmit 1 (fun _ => 0) (fun _ => []) 0
      ((queue (0 : Nat) (fun _ => 0) 0 (initState Nat 1) exampleCtx).2)).1)).1

/-! ## Theorems -/

theorem natCompare_swap (a b : Nat) : compare a b = (compare b a).swap := by
  rcases Nat.lt_trichotomy a b with h | h | h
  · rw [Nat.compare_eq_lt.2 h, Nat.compare_eq_gt.2 h]; rfl
  · subst h; rw [Nat.compare_eq_eq.2 rfl]; rfl
  · rw [Nat.compare_eq_gt.2 h, Nat.compare_eq_lt.2 h]; rfl

theorem swap_ne_lt (o : Ordering) (h : o ≠ Ordering.gt) : o.swap ≠ Ordering.lt := by
  cases o <;> revert h <;> decide

theorem eq_swap_ne_lt (o : Ordering) (h : o = o.swap) : o ≠ Ordering.lt := by
  cases o <;> revert h <;> decide

theorem maxBy_eq_none (f : α → α → Ordering) (l : List α) :
    maxBy f l = none ↔ l = [] := by
  cases l <;> simp [maxBy]

theorem foldlMax_spec (f : α → α → Ordering)
    (hswap : ∀ a b, f a b = (f b a).swap)
    (htrans : ∀ a b c, f a b ≠ .lt → f b c ≠ .lt → f a c ≠ .lt)
    (l : List α) (a : α) :
    (l.foldl (fun acc x => if f acc x = .gt then acc else x) a) ∈ a :: l ∧
    ∀ x ∈ a :: l,
      f (l.foldl (fun acc x => if f acc x = .gt then acc else x) a) x ≠ .lt := by
  induction l generalizing a with
  | nil =>
      refine ⟨List.mem_cons_self _ _, ?_⟩
      intro x hx
      rcases List.mem_cons.1 hx with h | h
      · subst h; exact eq_swap_ne_lt _ (hswap x x)
      · exact absurd h (List.not_mem_nil _)
  | cons x rest ih =>
      simp only [List.foldl_cons]
      obtain ⟨hmem, hmax⟩ := ih (if f a x = .gt then a else x)
      have hacc : f (rest.foldl (fun acc y => if f acc y = .gt then acc else y)
          (if f a x = .gt then a else x)) (if f a x = .gt then a else x) ≠ .lt :=
        hmax _ (List.mem_cons_self _ _)
      constructor
      · rcases List.mem_cons.1 hmem with h | h
        · rw [h]
          by_cases hc : f a x = .gt
          · simp only [if_pos hc]
            exact List.mem_cons_self _ _
          · simp only [if_neg hc]
            exact List.mem_cons_of_mem _ (List.mem_cons_self _ _)
        · exact List.mem_cons_of_mem _ (List.mem_cons_of_mem _ h)
      · intro y hy
        rcases List.mem_cons.1 hy with h | h
        · rw [h]
          by_cases hc : f a x = .gt
          · rw [if_pos hc] at hacc ⊢; exact hacc
          · rw [if_neg hc] at hacc ⊢
            have hxa : f x a ≠ .lt := by rw [hswap x a]; exact swap_ne_lt _ hc
            exact htrans _ _ _ hacc hxa
        · rcases List.mem_cons.1 h with h2 | h2
          · rw [h2]
            by_cases hc : f a x = .gt
            · rw [if_pos hc] at hacc ⊢
              exact htrans _ _ _ hacc (fun hl => by rw [hc] at hl; cases hl)
            · rw [if_neg hc] at hacc ⊢; exact hacc
          · by_cases hc : f a x = .gt
            · rw [if_pos hc] at hmax ⊢
              exact hmax y (List.mem_cons_of_mem _ h2)
            · rw [if_neg hc] at hmax ⊢
              exact hmax y (List.mem_cons_of_mem _ h2)

theorem maxBy_spec (f : α → α → Ordering)
    (hswap : ∀ a b, f a b = (f b a).swap)
    (htrans : ∀ a b c, f a b ≠ .lt → f b c ≠ .lt → f a c ≠ .lt)
    (l : List α) (m : α) (h : maxBy f l = some m) :
    m ∈ l ∧ ∀ x ∈ l, f m x ≠ .lt := by
  cases l with
  | nil => simp [maxBy] at h
  | cons a rest =>
      simp only [maxBy, Option.some.injEq] at h
      rw [← h]
      exact foldlMax_spec f hswap htrans rest a

theorem SlotChoice.cmp_eq_rank (a b : SlotChoice) :
    SlotChoice.cmp a b = (compare a.rank.1 b.rank.1).then (compare a.rank.2 b.rank.2) := by
  cases a <;> cases b <;> rfl

theorem cmpCand_eq_lt (a b : SlotChoice × Nat) :
    cmpCand a b = .lt ↔
      (a.1.rank.1 < b.1.rank.1 ∨
       (a.1.rank.1 = b.1.rank.1 ∧
        (a.1.rank.2 < b.1.rank.2 ∨ (a.1.rank.2 = b.1.rank.2 ∧ a.2 < b.2)))) := by
  obtain ⟨ca, da⟩ := a
  obtain ⟨cb, db⟩ := b
  simp only [cmpCand, SlotChoice.cmp_eq_rank, Ordering.then_eq_lt, Ordering.then_eq_eq,
    Nat.compare_eq_lt, Nat.compare_eq_eq]
  omega

theorem cmpCand_eq_gt (a b : SlotChoice × Nat) :
    cmpCand a b = .gt ↔
      (b.1.rank.1 < a.1.rank.1 ∨
       (a.1.rank.1 = b.1.rank.1 ∧
        (b.1.rank.2 < a.1.rank.2 ∨ (a.1.rank.2 = b.1.rank.2 ∧ b.2 < a.2)))) := by
  obtain ⟨ca, da⟩ := a
  obtain ⟨cb, db⟩ := b
  simp only [cmpCand, SlotChoice.cmp_eq_rank, Ordering.then_eq_gt, Ordering.then_eq_eq,
    Nat.compare_eq_gt, Nat.compare_eq_eq]
  omega

theorem cmpCand_eq_eq (a b : SlotChoice × Nat) :
    cmpCand a b = .eq ↔
      (a.1.rank.1 = b.1.rank.1 ∧ a.1.rank.2 = b.1.rank.2 ∧ a.2 = b.2) := by
  obtain ⟨ca, da⟩ := a
  obtain ⟨cb, db⟩ := b
  simp only [cmpCand, SlotChoice.cmp_eq_rank, Ordering.then_eq_eq, Nat.compare_eq_eq]
  omega

theorem cmpCand_swap (a b : SlotChoice × Nat) : cmpCand a b = (cmpCand b a).swap := by
  cases h : cmpCand b a
  · rw [cmpCand_eq_lt] at h
    rw [(cmpCand_eq_gt a b).2 (by omega)]
    rfl
  · rw [cmpCand_eq_eq] at h
    rw [(cmpCand_eq_eq a b).2 (by omega)]
    rfl
  · rw [cmpCand_eq_gt] at h
    rw [(cmpCand_eq_lt a b).2 (by omega)]
    rfl

theorem cmpCand_trans (a b c : SlotChoice × Nat)
    (hab : cmpCand a b ≠ .lt) (hbc : cmpCand b c ≠ .lt) : cmpCand a c ≠ .lt := by
  rw [Ne, cmpCand_eq_lt] at hab hbc ⊢
  omega

/-! ### The stop-string scanner (claim C4) -/

theorem stopScanGo_spec (stop buf : List Nat) :
    ∀ (rest : List Nat) (psafe pu : Nat),
      rest = buf.drop pu → psafe ≤ pu → pu ≤ buf.length →
      pu - psafe ≤ stop.length →
      (buf.drop psafe).take (pu - psafe) = stop.take (pu - psafe) →
      psafe ≤ (stopScanGo stop rest psafe pu).1 ∧
      (stopScanGo stop rest psafe pu).1 ≤ buf.length ∧
      ((stopScanGo stop rest psafe pu).2 = true →
        (stopScanGo stop rest psafe pu).1 + stop.length ≤ buf.length ∧
        (buf.drop (stopScanGo stop rest psafe pu).1).take stop.length = stop) ∧
      ((stopScanGo stop rest psafe pu).2 = false →
        buf.length - (stopScanGo stop rest psafe pu).1 < stop.length ∧
        buf.drop (stopScanGo stop rest psafe pu).1 =
          stop.take (buf.length - (stopScanGo stop rest psafe pu).1)) := by
  intro rest
  induction rest with
  | nil =>
      intro psafe pu hrest hsp hpl hbound hmatch
      have hpu : pu = buf.length := by
        have := List.drop_eq_nil_iff.1 hrest.symm
        omega
      subst hpu
      simp only [stopScanGo]
      refine ⟨le_refl _, hsp, ?_, ?_⟩
      · intro hm
        have hle : stop.length ≤ buf.length - psafe := of_decide_eq_true hm
        have heq : buf.length - psafe = stop.length := by omega
        constructor
        · omega
        · have h1 : (buf.drop psafe).take stop.length = stop.take stop.length := by
            rw [← heq]; exact hmatch
          rw [List.take_length] at h1
          exact h1
      · intro hm
        have hlt : ¬ (stop.length ≤ buf.length - psafe) := of_decide_eq_false hm
        constructor
        · omega
        · have hlen : (buf.drop psafe).length = buf.length - psafe := List.length_drop _ _
          have h2 := hmatch
          rw [List.take_of_length_le (le_of_eq hlen)] at h2
          exact h2
  | cons b rest ih =>
      intro psafe pu hrest hsp hpl hbound hmatch
      have hpu_lt : pu < buf.length := by
        have hl : (buf.drop pu).length = buf.length - pu := List.length_drop _ _
        rw [← hrest] at hl
        simp at hl
        omega
      have hrest' : rest = buf.drop (pu + 1) := by
        have hd : (buf.drop pu).drop 1 = buf.drop (pu + 1) := by
          rw [List.drop_drop]
        rw [← hrest] at hd
        simpa using hd
      have hb : buf[pu]? = some b := by
        have h0 : (buf.drop pu)[0]? = some b := by rw [← hrest]; simp
        rwa [List.getElem?_drop, Nat.add_zero] at h0
      by_cases hfull : stop.length ≤ pu - psafe
      · have heq : pu - psafe = stop.length := by omega
        simp only [stopScanGo, if_pos hfull]
        refine ⟨le_refl _, hsp.trans (le_of_lt hpu_lt), ?_, ?_⟩
        · intro _
          constructor
          · omega
          · have h1 : (buf.drop psafe).take stop.length = stop.take stop.length := by
              rw [← heq]; exact hmatch
            rw [List.take_length] at h1
            exact h1
        · intro hm
          cases hm
      · simp only [stopScanGo, if_neg hfull]
        by_cases hcmp : b = stop.getD (pu - psafe) 0
        · rw [if_pos hcmp]
          have hmatch' : (buf.drop psafe).take (pu + 1 - psafe) =
              stop.take (pu + 1 - psafe) := by
            have hk : pu + 1 - psafe = (pu - psafe) + 1 := by omega
            have hlt2 : pu - psafe < stop.length := by omega
            have hL : (buf.drop psafe)[pu - psafe]? = some b := by
              rw [List.getElem?_drop]
              have h3 : psafe + (pu - psafe) = pu := by omega
              rw [h3, hb]
            have hR : stop[pu - psafe]? = some (stop.getD (pu - psafe) 0) := by
              rw [List.getElem?_eq_getElem hlt2, List.getD_eq_getElem stop 0 hlt2]
            rw [hk, List.take_succ, List.take_succ, hmatch, hL, hR, hcmp]
          exact ih psafe (pu + 1) hrest' (by omega) (by omega) (by omega) hmatch'
        · rw [if_neg hcmp]
          obtain ⟨h1, h2, h3, h4⟩ :=
            ih (pu + 1) (pu + 1) hrest' (le_refl _) (by omega) (by omega) (by simp)
          exact ⟨by omega, h2, h3, h4⟩

theorem stopScan_spec (stop buf : List Nat) :
    (stopScan stop buf).1 ≤ buf.length ∧
    ((stopScan stop buf).2 = true →
      (stopScan stop buf).1 + stop.length ≤ buf.length ∧
      (buf.drop (stopScan stop buf).1).take stop.length = stop) ∧
    ((stopScan stop buf).2 = false →
      buf.length - (stopScan stop buf).1 < stop.length ∧
      buf.drop (stopScan stop buf).1 =
        stop.take (buf.length - (stopScan stop buf).1)) := by
  have h := stopScanGo_spec stop buf buf 0 0 (by simp) (le_refl _) (by simp) (by simp) (by simp)
  exact ⟨h.2.1, h.2.2.1, h.2.2.2⟩

/-- C4, counterexample: the restart-on-mismatch scan misses a stop string
with internal repeats.  For `s = "aab"` (`[97,97,98]`) over buffer
`"aaab"` (`[97,97,97,98]`) it returns `safe = 4`, `matched = false`,
declaring the whole buffer safe to emit — yet `s` occurs as a contiguous
substring inside `output_buffer[:4]` (at offset 1), contradicting the
claimed guarantee. -/
theorem stopScan_counterexample :
    stopScan [97, 97, 98] [97, 97, 97, 98] = (4, false) ∧
    [97, 97, 98] <:+: ([97, 97, 97, 98] : List Nat).take 4 := by
  constructor
  · rfl
  · decide

/-- C4 (amended): for every stop string `s` and buffer, the per-stop-string
scan returns `(safe, matched)` with `safe ≤ |buf|`; when `matched` holds,
`s` occurs in the buffer exactly at byte offset `safe`
(`buf[safe..safe+|s|] = s`); when `matched` fails, the withheld tail
`buf[safe..]` is the current partial match — a proper prefix of `s`, so
fewer than `|s|` bytes are withheld.  (The original claim's stronger
guarantee, that `buf[:safe]` contains no occurrence of `s` and no dangling
proper-prefix of `s`, fails for stop strings with internal repeats; see
the counterexample.) -/
theorem stopScan_amended (stop buf : List Nat) :
    (stopScan stop buf).1 ≤ buf.length ∧
    (((stopScan stop buf).2 = true ∧
        (stopScan stop buf).1 + stop.length ≤ buf.length ∧
        (buf.drop (stopScan stop buf).1).take stop.length = stop) ∨
     ((stopScan stop buf).2 = false ∧
        buf.length - (stopScan stop buf).1 < stop.length ∧
        buf.drop (stopScan stop buf).1 =
          stop.take (buf.length - (stopScan stop buf).1))) := by
  obtain ⟨h1, h2, h3⟩ := stopScan_spec stop buf
  refine ⟨h1, ?_⟩
  cases hm : (stopScan stop buf).2
  · exact Or.inr ⟨rfl, h3 hm⟩
  · exact Or.inl ⟨rfl, h2 hm⟩

/-! ### The penalty-free token set (claim C9) -/

theorem penaltyFreeTokens_mem (decodeText : Nat → List Char) (t : Nat) :
    t ∈ penaltyFreeTokens decodeText ↔
      (t < 65535 ∧ ∃ x ∈ PENALTY_FREE_LIST, x <:+: decodeText t) := by
  simp [penaltyFreeTokens, List.mem_filter, List.mem_range, List.any_eq_true]

/-- C9, counterexample: `Runtime::new` iterates `(0..u16::MAX)`, an
exclusive range, so token id `65535` is never in the penalty-free set even
when its decoded text contains a delimiter (here a tokenizer decoding
every token to `","`). -/
theorem penaltyFree_counterexample :
    ¬ (65535 ∈ penaltyFreeTokens (fun _ => [','])) ∧
    [','] ∈ PENALTY_FREE_LIST ∧ ([','] <:+: (fun (_ : Nat) => [',']) 65535) := by
  refine ⟨?_, by decide, by decide⟩
  intro h
  have h2 := (penaltyFreeTokens_mem (fun _ => [',']) 65535).1 h
  omega

/-- C9 (amended): the set computed at `Runtime::new` contains exactly the
token ids `t < 65535` (i.e. `t ∈ [0, 2^16 − 1)`, the source's exclusive
`0..u16::MAX` range — not all of `[0, 2^16)`) whose decoded text contains
one of the five configured delimiters; and in phase E, penalties are
subtracted exactly for the penalized tokens not in this set: applying
penalties with the set as filter equals applying, with no filter, only
the entries whose token is outside the set. -/
theorem penaltyFree_amended (decodeText : Nat → List Char) :
    (∀ t : Nat, t ∈ penaltyFreeTokens decodeText ↔
        (t < 65535 ∧ ∃ x ∈ PENALTY_FREE_LIST, x <:+: decodeText t)) ∧
    (∀ (pens : List (Nat × Int)) (d : List Int),
        applyPen (fun u => (penaltyFreeTokens decodeText).contains u) pens d =
        applyPen (fun _ => false)
          (pens.filter (fun e => !(penaltyFreeTokens decodeText).contains e.1)) d) := by
  refine ⟨penaltyFreeTokens_mem decodeText, ?_⟩
  intro pens d
  simp [applyPen, List.filter_filter]

/-! ### Phase-E bounds (claim C10) -/

theorem updAt_length (d : List Int) (i : Nat) (f : Int → Int) (d2 : List Int)
    (h : updAt d i f = some d2) : d2.length = d.length := by
  unfold updAt at h
  split at h
  · cases h
    simp
  · cases h

theorem foldlM_updAt_none_iff (f : Nat × Int → Int → Int) :
    ∀ (entries : List (Nat × Int)) (d : List Int),
      ((entries.foldlM (fun acc e => updAt acc e.1 (f e)) d) = none ↔
        ∃ e ∈ entries, d.length ≤ e.1) := by
  intro entries
  induction entries with
  | nil => intro d; simp
  | cons e es ih =>
      intro d
      rw [List.foldlM_cons]
      by_cases hb : e.1 < d.length
      · have hupd : updAt d e.1 (f e) = some (d.set e.1 (f e (d.get ⟨e.1, hb⟩))) := by
          unfold updAt
          rw [dif_pos hb]
        rw [hupd]
        simp only [Option.bind_eq_bind, Option.some_bind]
        rw [ih]
        constructor
        · rintro ⟨e2, he2, hlen⟩
          exact ⟨e2, List.mem_cons_of_mem _ he2, by simpa using hlen⟩
        · rintro ⟨e2, he2, hlen⟩
          rcases List.mem_cons.1 he2 with h | h
          · subst h; omega
          · exact ⟨e2, h, by simpa using hlen⟩
      · have hupd : updAt d e.1 (f e) = none := by
          unfold updAt
          rw [dif_neg hb]
        rw [hupd]
        simp only [Option.bind_eq_bind, Option.none_bind]
        constructor
        · intro _
          exact ⟨e, List.mem_cons_self _ _, by omega⟩
        · intro _
          trivial

theorem foldlM_updAt_length (f : Nat × Int → Int → Int) :
    ∀ (entries : List (Nat × Int)) (d d2 : List Int),
      (entries.foldlM (fun acc e => updAt acc e.1 (f e)) d) = some d2 →
      d2.length = d.length := by
  intro entries
  induction entries with
  | nil =>
      intro d d2 h
      simp only [List.foldlM_nil] at h
      cases h
      rfl
  | cons e es ih =>
      intro d d2 h
      rw [List.foldlM_cons] at h
      cases hu : updAt d e.1 (f e) with
      | none => rw [hu] at h; simp at h
      | some d1 =>
          rw [hu] at h
          simp only [Option.bind_eq_bind, Option.some_bind] at h
          rw [ih d1 d2 h, updAt_length d e.1 (f e) d1 hu]

/-- C10: phase E applies penalties and logit bias by direct indexing
(`data[*token as usize]`) with no bounds check: for a busy slot's logit
vector `d`, the post-processing panics (`none`) precisely when some
accumulated penalty entry for a non-penalty-free token, or some logit-bias
entry, carries a token id `≥ |d|`; and under the precondition that all
such ids are `< |d|`, it is panic-free. -/
theorem applyLogits_bounds (pfree : Nat → Bool) (context : GenerateContextM)
    (d : List Int) :
    (applyLogits pfree context d = none ↔
      ((∃ e ∈ context.penalties, pfree e.1 = false ∧ d.length ≤ e.1) ∨
       (∃ e ∈ context.request.logit_bias, d.length ≤ e.1))) ∧
    ((∀ e ∈ context.penalties, pfree e.1 = false → e.1 < d.length) →
     (∀ e ∈ context.request.logit_bias, e.1 < d.length) →
     ∃ d2, applyLogits pfree context d = some d2) := by
  have hpen_iff : (applyPen pfree context.penalties d = none ↔
      ∃ e ∈ context.penalties, pfree e.1 = false ∧ d.length ≤ e.1) := by
    unfold applyPen
    rw [foldlM_updAt_none_iff]
    constructor
    · rintro ⟨e, he, hlen⟩
      rw [List.mem_filter] at he
      exact ⟨e, he.1, by simpa using he.2, hlen⟩
    · rintro ⟨e, he, hf, hlen⟩
      exact ⟨e, List.mem_filter.2 ⟨he, by simpa using hf⟩, hlen⟩
  have hmain : (applyLogits pfree context d = none ↔
      ((∃ e ∈ context.penalties, pfree e.1 = false ∧ d.length ≤ e.1) ∨
       (∃ e ∈ context.request.logit_bias, d.length ≤ e.1))) := by
    unfold applyLogits
    cases hp : applyPen pfree context.penalties d with
    | none =>
        simp only [Option.bind_eq_bind, Option.none_bind]
        constructor
        · intro _
          exact Or.inl (hpen_iff.1 hp)
        · intro _
          trivial
    | some d1 =>
        have hlen1 : d1.length = d.length := by
          unfold applyPen at hp
          exact foldlM_updAt_length _ _ _ _ hp
        simp only [Option.bind_eq_bind, Option.some_bind]
        unfold applyBias
        rw [foldlM_updAt_none_iff]
        constructor
        · rintro ⟨e, he, hl⟩
          exact Or.inr ⟨e, he, by omega⟩
        · rintro (hl | ⟨e, he, hl⟩)
          · exact absurd hp (by rw [hpen_iff.2 hl]; simp)
          · exact ⟨e, he, by omega⟩
  refine ⟨hmain, ?_⟩
  intro h1 h2
  cases h3 : applyLogits pfree context d with
  | some d2 => exact ⟨d2, rfl⟩
  | none =>
      rcases hmain.1 h3 with ⟨e, he, hf, hl⟩ | ⟨e, he, hl⟩
      · have := h1 e he hf
        omega
      · have := h2 e he
        omega

/-- Witness for C10 at a concrete input: with in-range penalty and bias
token ids, phase E is panic-free. -/
theorem applyLogits_bounds_witness :
    ∃ d2, applyLogits (fun _ => false) exampleCtx [5, 6] = some d2 :=
  (applyLogits_bounds (fun _ => false) exampleCtx [5, 6]).2 (by decide) (by decide)

/-! ### The prefix cache checkout (claim C6) -/

theorem commonPrefixLen_le_left : ∀ (q k : List Nat), commonPrefixLen q k ≤ q.length := by
  intro q
  induction q with
  | nil => intro k; cases k <;> simp [commonPrefixLen]
  | cons a q ih =>
      intro k
      cases k with
      | nil => simp [commonPrefixLen]
      | cons b k =>
          simp only [commonPrefixLen]
          by_cases h : a = b
          · rw [if_pos h]
            simpa using ih k
          · rw [if_neg h]
            simp

theorem commonPrefixLen_of_prefix : ∀ (k q : List Nat), k <+: q →
    commonPrefixLen q k = k.length := by
  intro k
  induction k with
  | nil =>
      intro q _
      cases q <;> simp [commonPrefixLen]
  | cons a k ih =>
      intro q hk
      cases q with
      | nil => exact absurd hk (by simp)
      | cons b q =>
          rw [List.cons_prefix_cons] at hk
          obtain ⟨hab, htail⟩ := hk
          subst hab
          simp [commonPrefixLen, ih q htail]

theorem foldr_max_le (l : List Nat) (n : Nat) (h : ∀ x ∈ l, x ≤ n) :
    l.foldr max 0 ≤ n := by
  induction l with
  | nil => simp
  | cons a l ih =>
      simp only [List.foldr_cons]
      have h1 := h a (List.mem_cons_self _ _)
      have h2 := ih (fun x hx => h x (List.mem_cons_of_mem _ hx))
      omega

theorem le_foldr_max (l : List Nat) (x : Nat) (h : x ∈ l) : x ≤ l.foldr max 0 := by
  induction l with
  | nil => cases h
  | cons a l ih =>
      simp only [List.foldr_cons]
      rcases List.mem_cons.1 h with h1 | h1
      · subst h1; omega
      · have := ih h1; omega

theorem lcpLen_le (c : Cache σ) (q : List Nat) : lcpLen c q ≤ q.length := by
  apply foldr_max_le
  intro x hx
  rcases List.mem_map.1 hx with ⟨e, _, he⟩
  rw [← he]
  exact commonPrefixLen_le_left q e.1

theorem length_le_lcpLen (c : Cache σ) (q k : List Nat)
    (hk : k ∈ cacheKeys c) (hp : k <+: q) : k.length ≤ lcpLen c q := by
  rcases List.mem_map.1 hk with ⟨e, he, hek⟩
  have : commonPrefixLen q e.1 ∈ c.map (fun e => commonPrefixLen q e.1) :=
    List.mem_map.2 ⟨e, he, rfl⟩
  have hle := le_foldr_max _ _ this
  rw [hek, commonPrefixLen_of_prefix k q hp] at hle
  exact hle

theorem findDown_le (p : Nat → Bool) : ∀ n l, findDown p n = some l → l ≤ n ∧ p l = true := by
  intro n
  induction n with
  | zero => intro l h; cases h
  | succ n ih =>
      intro l h
      unfold findDown at h
      by_cases hp : p (n + 1)
      · rw [if_pos hp] at h
        cases h
        exact ⟨le_refl _, hp⟩
      · rw [if_neg hp] at h
        have h2 := ih l h
        exact ⟨by omega, h2.2⟩

theorem findDown_max (p : Nat → Bool) : ∀ n m, 1 ≤ m → m ≤ n → p m = true →
    ∃ l, findDown p n = some l ∧ m ≤ l := by
  intro n
  induction n with
  | zero => intro m h1 h2 _; omega
  | succ n ih =>
      intro m h1 h2 hp
      unfold findDown
      by_cases hq : p (n + 1)
      · rw [if_pos hq]
        exact ⟨n + 1, rfl, h2⟩
      · rw [if_neg hq]
        have hmn : m ≤ n := by
          by_contra hc
          have hm1 : m = n + 1 := by omega
          exact hq (hm1 ▸ hp)
        exact ih m h1 hmn hp

theorem containsKey_iff (c : Cache σ) (k : List Nat) :
    containsKey c k = true ↔ k ∈ cacheKeys c := by
  simp only [containsKey, List.any_eq_true, cacheKeys, List.mem_map, decide_eq_true_eq]

theorem lookupC_of_containsKey (c : Cache σ) (k : List Nat)
    (h : containsKey c k = true) : ∃ v, lookupC c k = some v := by
  unfold lookupC
  unfold containsKey at h
  rcases List.any_eq_true.1 h with ⟨e, he, hek⟩
  have : (c.find? (fun e => e.1 = k)).isSome := by
    rw [List.find?_isSome]
    exact ⟨e, he, hek⟩
  rcases Option.isSome_iff_exists.1 this with ⟨e2, he2⟩
  exact ⟨e2.2, by rw [he2]; rfl⟩

theorem lookupC_insertC (c : Cache σ) (k : List Nat) (v : σ) :
    lookupC (insertC c k v) k = some v := by
  simp [insertC, lookupC, List.find?_cons]

theorem checkoutLen_le (c : Cache σ) (q : List Nat) : checkoutLen c q ≤ lcpLen c q := by
  unfold checkoutLen
  cases hf : findDown (fun l => containsKey c ((q.take (lcpLen c q)).take l))
      ((q.take (lcpLen c q)).length) with
  | none => simp
  | some l =>
      have h1 := findDown_le _ _ _ hf
      simp only [Option.getD_some]
      have h2 : (q.take (lcpLen c q)).length ≤ lcpLen c q := by
        rw [List.length_take]
        omega
      omega

/-- C6: `checkout(q)` returns `(p, s)` where `p` is the longest stored key
that is a prefix of `q` — `p` is a prefix of `q`, no stored key that is a
prefix of `q` is longer, and either `p` is empty (no non-empty stored key
is a prefix of `q`) or `p` is itself a stored key and the cache afterwards
still maps `p` to (a clone of) the returned state `s`, so a checked-out
key remains reloadable. -/
theorem checkout_spec (freshB : σ) (c : Cache σ) (q : List Nat) :
    (checkout freshB c q).1 <+: q ∧
    (∀ k ∈ cacheKeys c, k <+: q → k.length ≤ (checkout freshB c q).1.length) ∧
    ((checkout freshB c q).1 = [] ∨
      (containsKey c (checkout freshB c q).1 = true ∧
       lookupC (checkout freshB c q).2.2 (checkout freshB c q).1 =
         some (checkout freshB c q).2.1)) := by
  have hp_def : (checkout freshB c q).1 = q.take (checkoutLen c q) := rfl
  have hlenle : checkoutLen c q ≤ lcpLen c q := checkoutLen_le c q
  have hmax : ∀ k ∈ cacheKeys c, k <+: q → k.length ≤ checkoutLen c q := by
    intro k hk hkq
    cases k with
    | nil => simp
    | cons a k0 =>
        have h1 : (a :: k0).length ≤ lcpLen c q := length_le_lcpLen c q _ hk hkq
        have h2 : (a :: k0).length ≤ q.length := hkq.length_le
        have h3 : (q.take (lcpLen c q)).take (a :: k0).length = a :: k0 := by
          rw [List.take_take]
          have hm : min (a :: k0).length (lcpLen c q) = (a :: k0).length := by omega
          rw [hm]
          exact (List.prefix_iff_eq_take.1 hkq).symm
        have h4 : containsKey c ((q.take (lcpLen c q)).take (a :: k0).length) = true := by
          rw [h3]
          exact (containsKey_iff c _).2 hk
        have h5 : (a :: k0).length ≤ (q.take (lcpLen c q)).length := by
          rw [List.length_take]
          omega
        obtain ⟨l, hfd, hml⟩ := findDown_max
          (fun l => containsKey c ((q.take (lcpLen c q)).take l))
          ((q.take (lcpLen c q)).length) ((a :: k0).length) (by simp) h5 h4
        unfold checkoutLen
        rw [hfd]
        simpa using hml
  refine ⟨hp_def ▸ List.take_prefix _ _, ?_, ?_⟩
  · intro k hk hkq
    rw [hp_def, List.length_take]
    have h2 : k.length ≤ q.length := hkq.length_le
    have h3 := hmax k hk hkq
    omega
  · by_cases hz : 0 < checkoutLen c q
    · right
      have hcont : containsKey c (q.take (checkoutLen c q)) = true := by
        rcases hf : findDown (fun l => containsKey c ((q.take (lcpLen c q)).take l))
            ((q.take (lcpLen c q)).length) with _ | l
        · exfalso
          unfold checkoutLen at hz
          rw [hf] at hz
          simp at hz
        · have hle := findDown_le _ _ _ hf
          have hlen_eq : checkoutLen c q = l := by
            unfold checkoutLen
            rw [hf]
            rfl
          have htk : (q.take (lcpLen c q)).take l = q.take l := by
            rw [List.take_take]
            have h6 : (q.take (lcpLen c q)).length = min (lcpLen c q) q.length :=
              List.length_take _ _
            have h7 : min l (lcpLen c q) = l := by omega
            rw [h7]
          rw [hlen_eq]
          rw [htk] at hle
          exact hle.2
      obtain ⟨v, hv⟩ := lookupC_of_containsKey c _ hcont
      refine ⟨by rw [hp_def]; exact hcont, ?_⟩
      have h22 : (checkout freshB c q).2.2 =
          insertC (eraseKey c (q.take (checkoutLen c q))) (q.take (checkoutLen c q))
            ((lookupC c (q.take (checkoutLen c q))).getD freshB) := by
        unfold checkout
        rw [if_pos hz]
      have h21 : (checkout freshB c q).2.1 =
          (lookupC c (q.take (checkoutLen c q))).getD freshB := rfl
      rw [hp_def, h22, h21, lookupC_insertC]
    · left
      rw [hp_def]
      have h0 : checkoutLen c q = 0 := by omega
      rw [h0]
      rfl

/-- Witness for C6 at a concrete cache: checking out query `[1, 2]` from a
cache storing key `[1]` yields `p = [1]`, which is a stored key and is
still mapped in the resulting cache to the returned state. -/
theorem checkout_spec_witness :
    containsKey [([1], 0)] (checkout (99 : Nat) [([1], 0)] [1, 2]).1 = true ∧
    lookupC (checkout (99 : Nat) [([1], 0)] [1, 2]).2.2
        (checkout (99 : Nat) [([1], 0)] [1, 2]).1 =
      some (checkout (99 : Nat) [([1], 0)] [1, 2]).2.1 := by
  have h := checkout_spec (99 : Nat) [([1], 0)] [1, 2]
  rcases h.2.2 with h0 | h1
  · exact absurd h0 (by decide)
  · exact h1

/-! ### Admission: candidates and choice (claims C1, C2, C5) -/

theorem classifySlot_batch (b : Nat) (content tokens : List Nat) :
    (classifySlot b content tokens).batch = b := by
  unfold classifySlot
  cases content.isEmpty <;> cases content.isPrefixOf tokens <;> rfl

theorem classifySlot_continue_iff (b : Nat) (content tokens : List Nat) (b2 k : Nat) :
    classifySlot b content tokens = SlotChoice.Continue b2 k ↔
      b2 = b ∧ content ≠ [] ∧ content.isPrefixOf tokens = true ∧ k = content.length := by
  unfold classifySlot
  cases he : content.isEmpty <;> cases hp : content.isPrefixOf tokens <;>
    simp_all [List.isEmpty_iff, SlotChoice.Continue.injEq] <;> tauto

theorem classifySlot_empty_iff (b : Nat) (content tokens : List Nat) (b2 : Nat) :
    classifySlot b content tokens = SlotChoice.Empty b2 ↔
      b2 = b ∧ content = [] := by
  unfold classifySlot
  cases he : content.isEmpty <;> cases hp : content.isPrefixOf tokens <;>
    simp_all [List.isEmpty_iff] <;> tauto

theorem classifySlot_back_iff (b : Nat) (content tokens : List Nat) (b2 : Nat) :
    classifySlot b content tokens = SlotChoice.Back b2 ↔
      b2 = b ∧ content ≠ [] ∧ content.isPrefixOf tokens = false := by
  unfold classifySlot
  cases he : content.isEmpty <;> cases hp : content.isPrefixOf tokens <;>
    simp_all [List.isEmpty_iff] <;> tauto

theorem mem_queueCands (now : Nat) (slots : List SlotState) (tokens : List Nat)
    (x : SlotChoice × Nat) :
    x ∈ queueCands now slots tokens ↔
      ∃ b content since, slots.get? b = some (SlotState.Idle content since) ∧
        x = (classifySlot b content tokens, now - since) := by
  unfold queueCands
  rw [List.mem_filterMap]
  constructor
  · rintro ⟨⟨b, slot⟩, hmem, hx⟩
    rw [List.mem_enum_iff_get?] at hmem
    cases slot with
    | Idle content since =>
        refine ⟨b, content, since, hmem, ?_⟩
        simpa using hx.symm
    | Wait context => simp at hx
    | Busy => simp at hx
  · rintro ⟨b, content, since, hb, hx⟩
    refine ⟨(b, SlotState.Idle content since), List.mem_enum_iff_get?.2 hb, ?_⟩
    simpa using hx.symm

theorem queueCands_eq_nil (now : Nat) (slots : List SlotState) (tokens : List Nat) :
    queueCands now slots tokens = [] ↔ ∀ slot ∈ slots, slot.isIdle = false := by
  unfold queueCands
  rw [List.filterMap_eq_nil]
  constructor
  · intro h slot hs
    obtain ⟨i, hi⟩ := List.mem_iff_get?.1 hs
    have h2 := h (i, slot) (List.mem_enum_iff_get?.2 hi)
    cases slot <;> simp_all [SlotState.isIdle]
  · intro h x hx
    rw [List.mem_enum_iff_get?] at hx
    have hmem : x.2 ∈ slots := List.get?_mem hx
    have h2 := h x.2 hmem
    cases hx2 : x.2 <;> simp_all [SlotState.isIdle]

theorem queueChoice_spec (now : Nat) (slots : List SlotState) (tokens : List Nat)
    (c : SlotChoice × Nat) (h : queueChoice now slots tokens = some c) :
    c ∈ queueCands now slots tokens ∧
    ∀ x ∈ queueCands now slots tokens, cmpCand c x ≠ .lt :=
  maxBy_spec cmpCand cmpCand_swap cmpCand_trans _ c h

theorem queueChoice_eq_none_iff (now : Nat) (slots : List SlotState) (tokens : List Nat) :
    queueChoice now slots tokens = none ↔ ∀ slot ∈ slots, slot.isIdle = false := by
  rw [queueChoice, maxBy_eq_none, queueCands_eq_nil]

theorem queueChoice_batch_idle (now : Nat) (slots : List SlotState) (tokens : List Nat)
    (ch : SlotChoice) (d : Nat) (h : queueChoice now slots tokens = some (ch, d)) :
    ∃ content since, slots.get? ch.batch = some (SlotState.Idle content since) ∧
      ch = classifySlot ch.batch content tokens ∧ d = now - since := by
  obtain ⟨hmem, _⟩ := queueChoice_spec now slots tokens _ h
  rw [mem_queueCands] at hmem
  obtain ⟨b, content, since, hb, hx⟩ := hmem
  rw [Prod.mk.injEq] at hx
  obtain ⟨hch, hd⟩ := hx
  have hbatch : ch.batch = b := by rw [hch, classifySlot_batch]
  rw [hbatch]
  exact ⟨content, since, hb, by rw [hch], hd⟩

theorem queue_eq_queueWith (freshB : σ) (backFn : Nat → σ) (now : Nat) (s : SchedState σ)
    (context : GenerateContextM) (stem : List Nat) (last : Nat)
    (h : context.pfx ++ context.sfx = stem ++ [last]) :
    queue freshB backFn now s context = queueWith freshB backFn now s context stem last := by
  unfold queue
  rw [h, List.reverse_append]
  simp only [List.reverse_cons, List.reverse_nil, List.nil_append, List.singleton_append]
  rw [List.reverse_reverse]

theorem queueWith_none (freshB : σ) (backFn : Nat → σ) (now : Nat) (s : SchedState σ)
    (context : GenerateContextM) (stem : List Nat) (last : Nat)
    (h : queueChoice now s.slots stem = none) :
    queueWith freshB backFn now s context stem last =
      (SlotResult.Failure { context with pfx := [], sfx := stem ++ [last] }, s) := by
  unfold queueWith
  rw [h]

theorem queueWith_continue (freshB : σ) (backFn : Nat → σ) (now : Nat) (s : SchedState σ)
    (context : GenerateContextM) (stem : List Nat) (last : Nat) (batch k d : Nat)
    (h : queueChoice now s.slots stem = some (SlotChoice.Continue batch k, d)) :
    queueWith freshB backFn now s context stem last =
      (SlotResult.Success batch,
       { s with slots := s.slots.set batch (SlotState.Wait
           { context with pfx := (stem ++ [last]).take k,
                          sfx := (stem ++ [last]).drop k }) }) := by
  unfold queueWith
  rw [h]

theorem queueWith_empty (freshB : σ) (backFn : Nat → σ) (now : Nat) (s : SchedState σ)
    (context : GenerateContextM) (stem : List Nat) (last : Nat) (batch d : Nat)
    (h : queueChoice now s.slots stem = some (SlotChoice.Empty batch, d)) :
    queueWith freshB backFn now s context stem last =
      (SlotResult.Fault batch,
       { s with
           slots := s.slots.set batch (SlotState.Wait
             { context with
                 pfx := (stem ++ [last]).take (checkout freshB s.cache stem).1.length
                 sfx := (stem ++ [last]).drop (checkout freshB s.cache stem).1.length })
           cache := (checkout freshB s.cache stem).2.2 }) := by
  unfold queueWith
  rw [h]

theorem queueWith_back (freshB : σ) (backFn : Nat → σ) (now : Nat) (s : SchedState σ)
    (context : GenerateContextM) (stem : List Nat) (last : Nat) (batch d : Nat)
    (content : List Nat) (since : Nat)
    (h : queueChoice now s.slots stem = some (SlotChoice.Back batch, d))
    (hidle : s.slots.get? batch = some (SlotState.Idle content since)) :
    queueWith freshB backFn now s context stem last =
      (SlotResult.Fault batch,
       { s with
           slots := s.slots.set batch (SlotState.Wait
             { context with
                 pfx := (stem ++ [last]).take (checkout freshB s.cache stem).1.length
                 sfx := (stem ++ [last]).drop (checkout freshB s.cache stem).1.length })
           cache := insertC (checkout freshB s.cache stem).2.2 content (backFn batch) }) := by
  unfold queueWith
  rw [h]
  dsimp only
  rw [List.get?_eq_getElem?] at hidle
  rw [hidle]

theorem get?_lt_length {α : Type} (l : List α) (n : Nat) (a : α)
    (h : l.get? n = some a) : n < l.length := by
  by_contra hc
  rw [List.get?_eq_none.2 (by omega)] at h
  cases h

theorem get?_set_self {α : Type} (l : List α) (n : Nat) (a : α) (h : n < l.length) :
    (l.set n a).get? n = some a := by
  rw [List.get?_eq_getElem?, List.getElem?_set_self', List.getElem?_eq_getElem h]
  rfl

/-- C5: `queue` returns `Error` iff the input `prefix ++ suffix` is empty;
it returns `Failure(ctx)` iff the input is non-empty and no slot is
`Idle`, with `ctx` carrying an empty prefix, the full original sequence as
suffix, and all other fields unchanged; in both of these cases the
returned scheduler state (slot table, payloads and cache) is exactly the
input state.  Otherwise — non-empty input with some idle slot — the
result is `Success` or `Fault`.  The three cases are mutually exclusive
and exhaustive, which yields both claimed "if and only if"s. -/
theorem queue_boundary (freshB : σ) (backFn : Nat → σ) (now : Nat) (s : SchedState σ)
    (context : GenerateContextM) :
    (context.pfx ++ context.sfx = [] ∧
       queue freshB backFn now s context = (SlotResult.Error, s)) ∨
    (context.pfx ++ context.sfx ≠ [] ∧ (∀ slot ∈ s.slots, slot.isIdle = false) ∧
       queue freshB backFn now s context =
         (SlotResult.Failure
            { context with pfx := [], sfx := context.pfx ++ context.sfx }, s)) ∨
    (context.pfx ++ context.sfx ≠ [] ∧ (∃ slot ∈ s.slots, slot.isIdle = true) ∧
       ∃ b, (queue freshB backFn now s context).1 = SlotResult.Success b ∨
            (queue freshB backFn now s context).1 = SlotResult.Fault b) := by
  rcases List.eq_nil_or_concat (context.pfx ++ context.sfx) with hnil | ⟨stem, last, hconcat0⟩
  · left
    refine ⟨hnil, ?_⟩
    unfold queue
    rw [hnil]
    rfl
  · have hconcat : context.pfx ++ context.sfx = stem ++ [last] := by
      rw [hconcat0, List.concat_eq_append]
    have hne : context.pfx ++ context.sfx ≠ [] := by rw [hconcat]; simp
    have hq := queue_eq_queueWith freshB backFn now s context stem last hconcat
    cases hch : queueChoice now s.slots stem with
    | none =>
        right; left
        refine ⟨hne, (queueChoice_eq_none_iff now s.slots stem).1 hch, ?_⟩
        rw [hq, queueWith_none freshB backFn now s context stem last hch, hconcat]
    | some cd =>
        right; right
        obtain ⟨ch, d⟩ := cd
        obtain ⟨content, since, hidle, hclass, hd⟩ :=
          queueChoice_batch_idle now s.slots stem ch d hch
        have hmem : SlotState.Idle content since ∈ s.slots := List.get?_mem hidle
        refine ⟨hne, ⟨_, hmem, rfl⟩, ch.batch, ?_⟩
        cases ch with
        | Continue batch k =>
            left
            rw [hq, queueWith_continue freshB backFn now s context stem last batch k d hch]
            rfl
        | Empty batch =>
            right
            rw [hq, queueWith_empty freshB backFn now s context stem last batch d hch]
            rfl
        | Back batch =>
            right
            rw [hq, queueWith_back freshB backFn now s context stem last batch d
              content since hch hidle]
            rfl

/-- Witness for C5 at a concrete input: an empty request is rejected with
`Error` and the state is untouched. -/
theorem queue_boundary_witness :
    queue (0 : Nat) (fun _ => 0) 0 { slots := [], payloads := [], cache := [] }
        { exampleCtx with sfx := [] } =
      (SlotResult.Error, { slots := [], payloads := [], cache := [] }) := by
  rcases queue_boundary (0 : Nat) (fun _ => 0) 0
      { slots := [], payloads := [], cache := [] } { exampleCtx with sfx := [] } with
    ⟨_, h⟩ | ⟨h1, _⟩ | ⟨h1, _⟩
  · exact h
  · exact absurd rfl h1
  · exact absurd rfl h1

/-- C2: every call to `queue` that returns `Success(b)` or `Fault(b)`
leaves slot `b` in state `Wait(ctx')` with `ctx'.prefix ++ ctx'.suffix`
equal to the full input `prefix ++ suffix` and `ctx'.suffix` non-empty:
the last token of the input is always kept in the suffix. -/
theorem queue_wait_split (freshB : σ) (backFn : Nat → σ) (now : Nat) (s : SchedState σ)
    (context : GenerateContextM) (b : Nat)
    (h : (queue freshB backFn now s context).1 = SlotResult.Success b ∨
         (queue freshB backFn now s context).1 = SlotResult.Fault b) :
    ∃ ctx2, ((queue freshB backFn now s context).2).slots.get? b =
        some (SlotState.Wait ctx2) ∧
      ctx2.pfx ++ ctx2.sfx = context.pfx ++ context.sfx ∧
      ctx2.sfx ≠ [] := by
  rcases List.eq_nil_or_concat (context.pfx ++ context.sfx) with hnil | ⟨stem, last, hconcat0⟩
  · exfalso
    have he : queue freshB backFn now s context = (SlotResult.Error, s) := by
      unfold queue
      rw [hnil]
      rfl
    rcases h with h | h <;> rw [he] at h <;> cases h
  · have hconcat : context.pfx ++ context.sfx = stem ++ [last] := by
      rw [hconcat0, List.concat_eq_append]
    have hq := queue_eq_queueWith freshB backFn now s context stem last hconcat
    cases hch : queueChoice now s.slots stem with
    | none =>
        exfalso
        rw [hq, queueWith_none freshB backFn now s context stem last hch] at h
        rcases h with h | h <;> cases h
    | some cd =>
        obtain ⟨ch, d⟩ := cd
        obtain ⟨content, since, hidle, hclass, hd⟩ :=
          queueChoice_batch_idle now s.slots stem ch d hch
        have hblt : ch.batch < s.slots.length := get?_lt_length _ _ _ hidle
        cases ch with
        | Continue batch k =>
            rw [hq,
              queueWith_continue freshB backFn now s context stem last batch k d hch] at h ⊢
            have hb : batch = b := by
              rcases h with h | h
              · simpa using h
              · simp at h
            subst hb
            have hk : k ≤ stem.length := by
              obtain ⟨_, _, hpre, hkc⟩ := (classifySlot_continue_iff _ _ _ _ _).1 hclass.symm
              have hle := (List.isPrefixOf_iff_prefix.1 hpre).length_le
              omega
            refine ⟨_, get?_set_self _ _ _ hblt, ?_, ?_⟩
            · show (stem ++ [last]).take k ++ (stem ++ [last]).drop k =
                context.pfx ++ context.sfx
              rw [List.take_append_drop, hconcat]
            · show (stem ++ [last]).drop k ≠ []
              intro hcon
              rw [List.drop_eq_nil_iff] at hcon
              simp at hcon
              omega
        | Empty batch =>
            rw [hq,
              queueWith_empty freshB backFn now s context stem last batch d hch] at h ⊢
            have hb : batch = b := by
              rcases h with h | h
              · simp at h
              · simpa using h
            subst hb
            have hk : (checkout freshB s.cache stem).1.length ≤ stem.length := by
              have hdef : (checkout freshB s.cache stem).1 =
                  stem.take (checkoutLen s.cache stem) := rfl
              rw [hdef, List.length_take]
              omega
            refine ⟨_, get?_set_self _ _ _ hblt, ?_, ?_⟩
            · show (stem ++ [last]).take (checkout freshB s.cache stem).1.length ++
                  (stem ++ [last]).drop (checkout freshB s.cache stem).1.length =
                context.pfx ++ context.sfx
              rw [List.take_append_drop, hconcat]
            · show (stem ++ [last]).drop (checkout freshB s.cache stem).1.length ≠ []
              intro hcon
              rw [List.drop_eq_nil_iff] at hcon
              simp at hcon
              omega
        | Back batch =>
            rw [hq, queueWith_back freshB backFn now s context stem last batch d
              content since hch hidle] at h ⊢
            have hb : batch = b := by
              rcases h with h | h
              · simp at h
              · simpa using h
            subst hb
            have hk : (checkout freshB s.cache stem).1.length ≤ stem.length := by
              have hdef : (checkout freshB s.cache stem).1 =
                  stem.take (checkoutLen s.cache stem) := rfl
              rw [hdef, List.length_take]
              omega
            refine ⟨_, get?_set_self _ _ _ hblt, ?_, ?_⟩
            · show (stem ++ [last]).take (checkout freshB s.cache stem).1.length ++
                  (stem ++ [last]).drop (checkout freshB s.cache stem).1.length =
                context.pfx ++ context.sfx
              rw [List.take_append_drop, hconcat]
            · show (stem ++ [last]).drop (checkout freshB s.cache stem).1.length ≠ []
              intro hcon
              rw [List.drop_eq_nil_iff] at hcon
              simp at hcon
              omega

/-- Witness for C2 at a concrete input: admitting `[2, 3]` into a single
idle slot holding content `[2]` returns `Success 0` and leaves the slot
in `Wait` with prefix `[2]` and suffix `[3]`. -/
theorem queue_wait_split_witness :
    ∃ ctx2, ((queue (0 : Nat) (fun _ => 0) 5
          { slots := [SlotState.Idle [2] 0], payloads := [], cache := [] }
          { exampleCtx with sfx := [2, 3] }).2).slots.get? 0 =
        some (SlotState.Wait ctx2) ∧
      ctx2.pfx ++ ctx2.sfx =
        ({ exampleCtx with sfx := [2, 3] } : GenerateContextM).pfx ++
          ({ exampleCtx with sfx := [2, 3] } : GenerateContextM).sfx ∧
      ctx2.sfx ≠ [] :=
  queue_wait_split (0 : Nat) (fun _ => 0) 5
    { slots := [SlotState.Idle [2] 0], payloads := [], cache := [] }
    { exampleCtx with sfx := [2, 3] } 0 (Or.inl (by decide))

/-- C1: for every `queue` call with non-empty input and at least one idle
slot, the chosen candidate is a maximum of the idle-slot candidates under
the comparator `SlotChoice::cmp` refined by idle age — i.e. the ordering
`Continue > Empty > Back` with `Continue`s compared by reusable prefix
length `k` and remaining ties broken by larger `elapsed` (longer idle
wins) — and `queue` returns `Success(b)` exactly when the chosen
candidate is `Continue(b, k)` for some `k`, and `Fault(b)` exactly when
it is `Empty(b)` or `Back(b)`. -/
theorem queue_choice_max (freshB : σ) (backFn : Nat → σ) (now : Nat) (s : SchedState σ)
    (context : GenerateContextM)
    (hne : context.pfx ++ context.sfx ≠ [])
    (hidle : ∃ slot ∈ s.slots, slot.isIdle = true) :
    ∃ c, queueChoice now s.slots (context.pfx ++ context.sfx).dropLast = some c ∧
      c ∈ queueCands now s.slots ((context.pfx ++ context.sfx).dropLast) ∧
      (∀ x ∈ queueCands now s.slots ((context.pfx ++ context.sfx).dropLast),
        cmpCand c x ≠ Ordering.lt) ∧
      (∀ b : Nat, ((queue freshB backFn now s context).1 = SlotResult.Success b ↔
          ∃ k, c.1 = SlotChoice.Continue b k)) ∧
      (∀ b : Nat, ((queue freshB backFn now s context).1 = SlotResult.Fault b ↔
          (c.1 = SlotChoice.Empty b ∨ c.1 = SlotChoice.Back b))) := by
  rcases List.eq_nil_or_concat (context.pfx ++ context.sfx) with hnil | ⟨stem, last, hconcat0⟩
  · exact absurd hnil hne
  · have hconcat : context.pfx ++ context.sfx = stem ++ [last] := by
      rw [hconcat0, List.concat_eq_append]
    have hstem : (context.pfx ++ context.sfx).dropLast = stem := by
      rw [hconcat, List.dropLast_concat]
    rw [hstem]
    have hq := queue_eq_queueWith freshB backFn now s context stem last hconcat
    cases hch : queueChoice now s.slots stem with
    | none =>
        exfalso
        rw [queueChoice_eq_none_iff] at hch
        obtain ⟨slot, hmem, hs⟩ := hidle
        rw [hch slot hmem] at hs
        cases hs
    | some cd =>
        obtain ⟨hmem_c, hmax⟩ := queueChoice_spec now s.slots stem cd hch
        obtain ⟨ch, d⟩ := cd
        obtain ⟨content, since, hidle2, hclass, hd⟩ :=
          queueChoice_batch_idle now s.slots stem ch d hch
        refine ⟨(ch, d), rfl, hmem_c, hmax, ?_, ?_⟩
        · intro b
          cases ch with
          | Continue batch k =>
              rw [hq,
                queueWith_continue freshB backFn now s context stem last batch k d hch]
              constructor
              · intro hsb
                have hbb : batch = b := by simpa using hsb
                exact ⟨k, by rw [hbb]⟩
              · rintro ⟨k2, hk2⟩
                simp only [SlotChoice.Continue.injEq] at hk2
                simp [hk2.1]
          | Empty batch =>
              rw [hq, queueWith_empty freshB backFn now s context stem last batch d hch]
              constructor
              · intro hsb
                simp at hsb
              · rintro ⟨k2, hk2⟩
                cases hk2
          | Back batch =>
              rw [hq, queueWith_back freshB backFn now s context stem last batch d
                content since hch hidle2]
              constructor
              · intro hsb
                simp at hsb
              · rintro ⟨k2, hk2⟩
                cases hk2
        · intro b
          cases ch with
          | Continue batch k =>
              rw [hq,
                queueWith_continue freshB backFn now s context stem last batch k d hch]
              constructor
              · intro hsb
                simp at hsb
              · rintro (hk2 | hk2) <;> cases hk2
          | Empty batch =>
              rw [hq, queueWith_empty freshB backFn now s context stem last batch d hch]
              constructor
              · intro hsb
                have hbb : batch = b := by simpa using hsb
                exact Or.inl (by rw [hbb])
              · rintro (hk2 | hk2)
                · simp only [SlotChoice.Empty.injEq] at hk2
                  simp [hk2]
                · cases hk2
          | Back batch =>
              rw [hq, queueWith_back freshB backFn now s context stem last batch d
                content since hch hidle2]
              constructor
              · intro hsb
                have hbb : batch = b := by simpa using hsb
                exact Or.inr (by rw [hbb])
              · rintro (hk2 | hk2)
                · cases hk2
                · simp only [SlotChoice.Back.injEq] at hk2
                  simp [hk2]

/-- Witness for C1 at a concrete input: one idle slot with content `[2]`
and request `[2, 3]`; the chosen candidate is `Continue(0, 1)` and the
call returns `Success 0`. -/
theorem queue_choice_max_witness :
    ∃ c, queueChoice 5 [SlotState.Idle [2] 0] [2] = some c ∧
      c ∈ queueCands 5 [SlotState.Idle [2] 0] [2] ∧
      (∀ x ∈ queueCands 5 [SlotState.Idle [2] 0] [2], cmpCand c x ≠ Ordering.lt) ∧
      (∀ b : Nat, ((queue (0 : Nat) (fun _ => 0) 5
            { slots := [SlotState.Idle [2] 0], payloads := [], cache := [] }
            { exampleCtx with sfx := [2, 3] }).1 = SlotResult.Success b ↔
          ∃ k, c.1 = SlotChoice.Continue b k)) ∧
      (∀ b : Nat, ((queue (0 : Nat) (fun _ => 0) 5
            { slots := [SlotState.Idle [2] 0], payloads := [], cache := [] }
            { exampleCtx with sfx := [2, 3] }).1 = SlotResult.Fault b ↔
          (c.1 = SlotChoice.Empty b ∨ c.1 = SlotChoice.Back b))) :=
  queue_choice_max (0 : Nat) (fun _ => 0) 5
    { slots := [SlotState.Idle [2] 0], payloads := [], cache := [] }
    { exampleCtx with sfx := [2, 3] } (by decide)
    ⟨SlotState.Idle [2] 0, by decide, rfl⟩

/-! ### Process phases: structural lemmas (claims C3, C7) -/

theorem countBusy_nil : countBusy [] = 0 := rfl

theorem countBusy_cons (p : Payload) (ps : List Payload) :
    countBusy (p :: ps) = (if p.isBusy then 1 else 0) + countBusy ps := by
  unfold countBusy
  cases hb : p.isBusy <;> simp [List.filter_cons, hb, Nat.add_comm]

theorem countBusy_append (ps qs : List Payload) :
    countBusy (ps ++ qs) = countBusy ps + countBusy qs := by
  unfold countBusy
  rw [List.filter_append, List.length_append]

theorem countBusy_replicate_empty (n : Nat) :
    countBusy (List.replicate n Payload.Empty) = 0 := by
  induction n with
  | zero => rfl
  | succ n ih =>
      rw [List.replicate_succ, countBusy_cons, ih]
      simp [Payload.isBusy]

theorem countBusy_take_le (ps : List Payload) (n : Nat) :
    countBusy (ps.take n) ≤ countBusy ps := by
  induction ps generalizing n with
  | nil => simp [countBusy]
  | cons p ps ih =>
      cases n with
      | zero => simp [countBusy]
      | succ n =>
          rw [List.take_succ_cons, countBusy_cons, countBusy_cons]
          have := ih n
          omega

theorem resizePayloads_countBusy_le (B : Nat) (ps : List Payload) :
    countBusy (resizePayloads B ps) ≤ countBusy ps := by
  unfold resizePayloads
  rw [countBusy_append, countBusy_replicate_empty]
  have := countBusy_take_le ps B
  omega

theorem resizePayloads_length (B : Nat) (ps : List Payload) :
    (resizePayloads B ps).length = B := by
  unfold resizePayloads
  rw [List.length_append, List.length_take, List.length_replicate]
  omega

theorem resizePayloads_self (B : Nat) (ps : List Payload) (h : ps.length = B) :
    resizePayloads B ps = ps := by
  unfold resizePayloads
  rw [← h, List.take_length]
  simp

theorem killDead_countBusy_le (ss : List SlotState) (ps : List Payload) :
    countBusy (killDead ss ps) ≤ countBusy ps := by
  unfold killDead
  induction ss generalizing ps with
  | nil => simp [countBusy]
  | cons s ss ih =>
      cases ps with
      | nil => simp [countBusy]
      | cons p ps =>
          rw [List.zipWith_cons_cons, countBusy_cons, countBusy_cons]
          have := ih ps
          by_cases hc : (!p.isEmpty && !s.isBusy) = true
          · rw [if_pos hc]
            have h0 : (if Payload.Empty.isBusy then 1 else 0) = 0 := rfl
            rw [h0]
            omega
          · rw [if_neg hc]
            omega

theorem killDead_length (ss : List SlotState) (ps : List Payload) :
    (killDead ss ps).length = min ss.length ps.length := by
  unfold killDead
  rw [List.length_zipWith]

theorem reapAll_lengths {σ : Type} (backFn : Nat → σ) (embedFn : Nat → List Int)
    (now : Nat) :
    ∀ (b : Nat) (ss : List SlotState) (ps : List Payload) (c : Cache σ),
      (reapAll backFn embedFn now b ss ps c).1.length = ss.length ∧
      (reapAll backFn embedFn now b ss ps c).2.1.length = ps.length := by
  intro b ss
  induction ss generalizing b with
  | nil => intro ps c; simp [reapAll]
  | cons s ss ih =>
      intro ps c
      cases ps with
      | nil => simp [reapAll]
      | cons p ps =>
          cases p with
          | Done context =>
              simp only [reapAll, List.length_cons]
              have := ih (b + 1) ps (insertC c context.pfx (backFn b))
              omega
          | Empty =>
              simp only [reapAll, List.length_cons]
              have := ih (b + 1) ps c
              omega
          | Busy context =>
              simp only [reapAll, List.length_cons]
              have := ih (b + 1) ps c
              omega

theorem reapAll_countBusy {σ : Type} (backFn : Nat → σ) (embedFn : Nat → List Int)
    (now : Nat) :
    ∀ (b : Nat) (ss : List SlotState) (ps : List Payload) (c : Cache σ),
      ps.length = ss.length →
      countBusy (reapAll backFn embedFn now b ss ps c).2.1 = countBusy ps := by
  intro b ss
  induction ss generalizing b with
  | nil =>
      intro ps c hlen
      rw [List.length_eq_zero.1 hlen]
      rfl
  | cons s ss ih =>
      intro ps c hlen
      cases ps with
      | nil => simp at hlen
      | cons p ps =>
          simp only [List.length_cons, Nat.succ.injEq] at hlen
          cases p with
          | Done context =>
              simp only [reapAll]
              rw [countBusy_cons, countBusy_cons, ih (b + 1) ps _ hlen]
              rfl
          | Empty =>
              simp only [reapAll]
              rw [countBusy_cons, countBusy_cons, ih (b + 1) ps c hlen]
          | Busy context =>
              simp only [reapAll]
              rw [countBusy_cons, countBusy_cons, ih (b + 1) ps c hlen]

theorem promote_lengths :
    ∀ (ss : List SlotState) (ps : List Payload) (r b : Nat),
      (promote ss ps r b).1.length = ss.length ∧
      (promote ss ps r b).2.1.length = ps.length := by
  intro ss
  induction ss with
  | nil => intro ps r b; simp [promote]
  | cons s ss ih =>
      intro ps r b
      cases ps with
      | nil => simp [promote]
      | cons p ps =>
          cases s with
          | Wait context =>
              cases r with
              | zero =>
                  simp only [promote, List.length_cons]
                  have := ih ps 0 (b + 1)
                  omega
              | succ r0 =>
                  simp only [promote, List.length_cons]
                  have := ih ps r0 (b + 1)
                  omega
          | Idle content since =>
              simp only [promote, List.length_cons]
              have := ih ps r (b + 1)
              omega
          | Busy =>
              simp only [promote, List.length_cons]
              have := ih ps r (b + 1)
              omega

theorem promote_events :
    ∀ (ss : List SlotState) (ps : List Payload) (r b : Nat),
      ps.length = ss.length →
      (promote ss ps r b).2.2 =
        ((waitIndices ss b).take r).map (fun i => (i, Token.Start)) := by
  intro ss
  induction ss with
  | nil => intro ps r b _; simp [promote, waitIndices]
  | cons s ss ih =>
      intro ps r b hlen
      cases ps with
      | nil => simp at hlen
      | cons p ps =>
          simp only [List.length_cons, Nat.succ.injEq] at hlen
          cases s with
          | Wait context =>
              cases r with
              | zero =>
                  simp only [promote, waitIndices, List.take_zero, List.map_nil]
                  rw [ih ps 0 (b + 1) hlen]
                  simp
              | succ r0 =>
                  simp only [promote, waitIndices, List.take_succ_cons, List.map_cons]
                  rw [ih ps r0 (b + 1) hlen]
          | Idle content since =>
              simp only [promote, waitIndices]
              exact ih ps r (b + 1) hlen
          | Busy =>
              simp only [promote, waitIndices]
              exact ih ps r (b + 1) hlen

theorem promote_countBusy :
    ∀ (ss : List SlotState) (ps : List Payload) (r b : Nat),
      ps.length = ss.length →
      List.Forall₂ (fun (slot : SlotState) (p : Payload) =>
        slot.isWait = true → p.isBusy = false) ss ps →
      countBusy (promote ss ps r b).2.1 =
        countBusy ps + min r (waitIndices ss b).length := by
  intro ss
  induction ss with
  | nil => intro ps r b hlen _; rw [List.length_eq_zero.1 hlen]; simp [promote, waitIndices, countBusy]
  | cons s ss ih =>
      intro ps r b hlen hco
      cases ps with
      | nil => simp at hlen
      | cons p ps =>
          simp only [List.length_cons, Nat.succ.injEq] at hlen
          cases hco with
          | cons hpair htail =>
              cases s with
              | Wait context =>
                  cases r with
                  | zero =>
                      simp only [promote, waitIndices]
                      rw [countBusy_cons, countBusy_cons, ih ps 0 (b + 1) hlen htail]
                      simp
                  | succ r0 =>
                      simp only [promote, waitIndices]
                      rw [countBusy_cons, countBusy_cons, ih ps r0 (b + 1) hlen htail]
                      have hp : p.isBusy = false := hpair rfl
                      rw [hp]
                      have h1 : (Payload.Busy context).isBusy = true := rfl
                      rw [h1]
                      simp only [List.length_cons]
                      simp
                      omega
              | Idle content since =>
                  simp only [promote, waitIndices]
                  rw [countBusy_cons, countBusy_cons, ih ps r (b + 1) hlen htail]
                  omega
              | Busy =>
                  simp only [promote, waitIndices]
                  rw [countBusy_cons, countBusy_cons, ih ps r (b + 1) hlen htail]
                  omega

theorem tailGo_countBusy_le (decode : Nat → List Nat) (settingStop : List (List Nat))
    (g : Nat → Option Nat × Nat × Bool) :
    ∀ (b : Nat) (ps : List Payload),
      countBusy (tailGo decode settingStop g b ps).1 ≤ countBusy ps := by
  intro b ps
  induction ps generalizing b with
  | nil => simp [tailGo, countBusy]
  | cons p ps ih =>
      cases p with
      | Busy context =>
          simp only [tailGo]
          rw [countBusy_cons, countBusy_cons]
          have := ih (b + 1)
          by_cases hd : (slotUpdate decode settingStop ((g b).2.2) context
              ((g b).1) ((g b).2.1)).2.2 = true
          · rw [if_pos hd]
            have h0 : (Payload.Done (slotUpdate decode settingStop ((g b).2.2) context
                ((g b).1) ((g b).2.1)).1).isBusy = false := rfl
            rw [h0]
            have h1 : (Payload.Busy context).isBusy = true := rfl
            rw [h1]
            simp
            omega
          · rw [if_neg hd]
            have h0 : (Payload.Busy (slotUpdate decode settingStop ((g b).2.2) context
                ((g b).1) ((g b).2.1)).1).isBusy = true := rfl
            rw [h0]
            have h1 : (Payload.Busy context).isBusy = true := rfl
            rw [h1]
            simp
            omega
      | Empty =>
          simp only [tailGo]
          rw [countBusy_cons, countBusy_cons]
          have := ih (b + 1)
          omega
      | Done context =>
          simp only [tailGo]
          rw [countBusy_cons, countBusy_cons]
          have := ih (b + 1)
          omega

theorem tailGo_length (decode : Nat → List Nat) (settingStop : List (List Nat))
    (g : Nat → Option Nat × Nat × Bool) :
    ∀ (b : Nat) (ps : List Payload),
      (tailGo decode settingStop g b ps).1.length = ps.length := by
  intro b ps
  induction ps generalizing b with
  | nil => rfl
  | cons p ps ih =>
      cases p with
      | Busy context =>
          simp only [tailGo]
          by_cases hd : (slotUpdate decode settingStop ((g b).2.2) context
              ((g b).1) ((g b).2.1)).2.2 = true
          · rw [if_pos hd]
            simp [ih (b + 1)]
          · rw [if_neg hd]
            simp [ih (b + 1)]
      | Empty => simp only [tailGo, List.length_cons, ih (b + 1)]
      | Done context => simp only [tailGo, List.length_cons, ih (b + 1)]

/-! ### Coherence preservation (claim C3) -/

theorem cohereAmended_idle_empty (content : List Nat) (since : Nat) :
    cohereAmended (SlotState.Idle content since) Payload.Empty := by
  constructor
  · constructor
    · intro h
      exact SlotState.noConfusion h
    · intro h
      rcases h with h | h <;> exact absurd h (by decide)
  · intro _
    exact Or.inl rfl

theorem cohereAmended_busy_busy (context : GenerateContextM) :
    cohereAmended SlotState.Busy (Payload.Busy context) := by
  constructor
  · constructor
    · intro _
      exact Or.inl rfl
    · intro _
      rfl
  · intro h
    simp [Payload.isEmpty] at h

theorem killDead_coherent (ss : List SlotState) (ps : List Payload)
    (h : List.Forall₂ cohereAmended ss ps) :
    List.Forall₂ cohereAmended ss (killDead ss ps) := by
  unfold killDead
  induction h with
  | nil => simp
  | @cons a p l1 l2 hpair htail ih =>
      rw [List.zipWith_cons_cons]
      refine List.Forall₂.cons ?_ ih
      by_cases hc : (!p.isEmpty && !a.isBusy) = true
      · rw [if_pos hc]
        rw [Bool.and_eq_true, Bool.not_eq_true', Bool.not_eq_true'] at hc
        constructor
        · constructor
          · intro ha
            rw [ha] at hc
            exact absurd hc.2 (by decide)
          · rintro (hb | hb) <;> exact absurd hb (by decide)
        · intro _
          cases ha : a with
          | Idle content since => exact Or.inl rfl
          | Wait context => exact Or.inr rfl
          | Busy => rw [ha] at hc; exact absurd hc.2 (by decide)
      · rw [if_neg hc]
        exact hpair

theorem reapAll_coherent {σ : Type} (backFn : Nat → σ) (embedFn : Nat → List Int)
    (now : Nat) :
    ∀ (b : Nat) (ss : List SlotState) (ps : List Payload) (c : Cache σ),
      List.Forall₂ cohereAmended ss ps →
      List.Forall₂ cohereAmended (reapAll backFn embedFn now b ss ps c).1
        (reapAll backFn embedFn now b ss ps c).2.1 := by
  intro b ss
  induction ss generalizing b with
  | nil =>
      intro ps c h
      cases h
      exact List.Forall₂.nil
  | cons s ss ih =>
      intro ps c h
      cases h with
      | cons hpair htail =>
          rename_i p ps2
          cases p with
          | Done context =>
              simp only [reapAll]
              exact List.Forall₂.cons (cohereAmended_idle_empty _ _) (ih (b + 1) ps2 _ htail)
          | Empty =>
              simp only [reapAll]
              exact List.Forall₂.cons hpair (ih (b + 1) ps2 c htail)
          | Busy context =>
              simp only [reapAll]
              exact List.Forall₂.cons hpair (ih (b + 1) ps2 c htail)

theorem promote_coherent :
    ∀ (ss : List SlotState) (ps : List Payload) (r b : Nat),
      List.Forall₂ cohereAmended ss ps →
      List.Forall₂ cohereAmended (promote ss ps r b).1 (promote ss ps r b).2.1 := by
  intro ss
  induction ss with
  | nil =>
      intro ps r b h
      cases h
      exact List.Forall₂.nil
  | cons s ss ih =>
      intro ps r b h
      cases h with
      | cons hpair htail =>
          rename_i p ps2
          cases s with
          | Wait context =>
              cases r with
              | zero =>
                  simp only [promote]
                  exact List.Forall₂.cons hpair (ih ps2 0 (b + 1) htail)
              | succ r0 =>
                  simp only [promote]
                  exact List.Forall₂.cons (cohereAmended_busy_busy context)
                    (ih ps2 r0 (b + 1) htail)
          | Idle content since =>
              simp only [promote]
              exact List.Forall₂.cons hpair (ih ps2 r (b + 1) htail)
          | Busy =>
              simp only [promote]
              exact List.Forall₂.cons hpair (ih ps2 r (b + 1) htail)

theorem tailGo_coherent (decode : Nat → List Nat) (settingStop : List (List Nat))
    (g : Nat → Option Nat × Nat × Bool) :
    ∀ (ss : List SlotState) (ps : List Payload) (b : Nat),
      List.Forall₂ cohereAmended ss ps →
      List.Forall₂ cohereAmended ss (tailGo decode settingStop g b ps).1 := by
  intro ss ps
  intro b h
  induction h generalizing b with
  | nil => exact List.Forall₂.nil
  | @cons a p l1 l2 hpair htail ih =>
      cases p with
      | Busy context =>
          have ha : a = SlotState.Busy := hpair.1.2 (Or.inl rfl)
          simp only [tailGo]
          refine List.Forall₂.cons ?_ (ih (b + 1))
          subst ha
          constructor
          · constructor
            · intro _
              by_cases hd : (slotUpdate decode settingStop ((g b).2.2) context
                  ((g b).1) ((g b).2.1)).2.2 = true
              · rw [if_pos hd]
                exact Or.inr rfl
              · rw [if_neg hd]
                exact Or.inl rfl
            · intro _
              rfl
          · intro hemp
            exfalso
            by_cases hd : (slotUpdate decode settingStop ((g b).2.2) context
                ((g b).1) ((g b).2.1)).2.2 = true
            · rw [if_pos hd] at hemp
              simp [Payload.isEmpty] at hemp
            · rw [if_neg hd] at hemp
              simp [Payload.isEmpty] at hemp
      | Empty =>
          simp only [tailGo]
          exact List.Forall₂.cons hpair (ih (b + 1))
      | Done context =>
          simp only [tailGo]
          exact List.Forall₂.cons hpair (ih (b + 1))

theorem coherent_set_wait (ss : List SlotState) (ps : List Payload) (b : Nat)
    (content : List Nat) (since : Nat) (ctx2 : GenerateContextM)
    (h : List.Forall₂ cohereAmended ss ps)
    (hb : ss.get? b = some (SlotState.Idle content since)) :
    List.Forall₂ cohereAmended (ss.set b (SlotState.Wait ctx2)) ps := by
  rw [List.forall₂_iff_get] at h ⊢
  obtain ⟨hlen, hget⟩ := h
  refine ⟨by rw [List.length_set]; exact hlen, ?_⟩
  intro i h1 h2
  have hi_lt : i < ss.length := by rw [List.length_set] at h1; exact h1
  by_cases hib : i = b
  · subst hib
    have hset : (ss.set i (SlotState.Wait ctx2)).get ⟨i, h1⟩ = SlotState.Wait ctx2 := by
      rw [List.get_eq_getElem, List.getElem_set_self]
    rw [hset]
    have hgi := hget i hi_lt h2
    have hsi : ss.get ⟨i, hi_lt⟩ = SlotState.Idle content since := by
      have h3 := List.get?_eq_get hi_lt
      rw [hb] at h3
      exact Option.some_injective _ h3.symm
    rw [hsi] at hgi
    have hnb : (ps.get ⟨i, h2⟩).isBusy = false := by
      by_contra hc
      have h4 := hgi.1.2 (Or.inl (by simpa using hc))
      exact SlotState.noConfusion h4
    have hnd : (ps.get ⟨i, h2⟩).isDone = false := by
      by_contra hc
      have h4 := hgi.1.2 (Or.inr (by simpa using hc))
      exact SlotState.noConfusion h4
    constructor
    · constructor
      · intro hw
        exact SlotState.noConfusion hw
      · rintro (hc | hc)
        · rw [hnb] at hc; cases hc
        · rw [hnd] at hc; cases hc
    · intro _
      exact Or.inr rfl
  · have hset : (ss.set b (SlotState.Wait ctx2)).get ⟨i, h1⟩ = ss.get ⟨i, hi_lt⟩ := by
      rw [List.get_eq_getElem, List.get_eq_getElem]
      exact List.getElem_set_ne (fun hbe => hib hbe.symm) _
    rw [hset]
    exact hget i hi_lt h2

theorem queue_coherent (freshB : σ) (backFn : Nat → σ) (now : Nat) (s : SchedState σ)
    (context : GenerateContextM) (h : CoherentAmended s) :
    CoherentAmended (queue freshB backFn now s context).2 := by
  rcases List.eq_nil_or_concat (context.pfx ++ context.sfx) with hnil | ⟨stem, last, hconcat0⟩
  · have he : queue freshB backFn now s context = (SlotResult.Error, s) := by
      unfold queue
      rw [hnil]
      rfl
    rw [he]
    exact h
  · have hconcat : context.pfx ++ context.sfx = stem ++ [last] := by
      rw [hconcat0, List.concat_eq_append]
    have hq := queue_eq_queueWith freshB backFn now s context stem last hconcat
    cases hch : queueChoice now s.slots stem with
    | none =>
        rw [hq, queueWith_none freshB backFn now s context stem last hch]
        exact h
    | some cd =>
        obtain ⟨ch, d⟩ := cd
        obtain ⟨content, since, hidle, hclass, hd⟩ :=
          queueChoice_batch_idle now s.slots stem ch d hch
        cases ch with
        | Continue batch k =>
            rw [hq, queueWith_continue freshB backFn now s context stem last batch k d hch]
            exact coherent_set_wait s.slots s.payloads batch content since _ h hidle
        | Empty batch =>
            rw [hq, queueWith_empty freshB backFn now s context stem last batch d hch]
            exact coherent_set_wait s.slots s.payloads batch content since _ h hidle
        | Back batch =>
            rw [hq, queueWith_back freshB backFn now s context stem last batch d
              content since hch hidle]
            exact coherent_set_wait s.slots s.payloads batch content since _ h hidle

theorem coherent_replicate : ∀ (B : Nat),
    List.Forall₂ cohereAmended (List.replicate B (SlotState.Idle [] 0))
      (List.replicate B Payload.Empty) := by
  intro B
  induction B with
  | zero => exact List.Forall₂.nil
  | succ n ih =>
      rw [List.replicate_succ, List.replicate_succ]
      exact List.Forall₂.cons (cohereAmended_idle_empty [] 0) ih

theorem reachableCoherentAux {σ : Type} (B mrb : Nat) (s : SchedState σ)
    (h : Reachable B mrb s) : CoherentAmended s := by
  induction h with
  | init => exact coherent_replicate B
  | queueStep s freshB backFn now context _ ih =>
      exact queue_coherent freshB backFn now s context ih
  | admitStep s backFn embedFn now _ ih =>
      unfold CoherentAmended at ih ⊢
      have hlen : s.payloads.length = s.slots.length := (List.Forall₂.length_eq ih).symm
      have h0 : resizePayloads s.slots.length s.payloads = s.payloads :=
        resizePayloads_self _ _ hlen
      unfold processAdmit
      rw [h0]
      exact promote_coherent _ _ _ 0
        (reapAll_coherent backFn embedFn now 0 s.slots (killDead s.slots s.payloads) s.cache
          (killDead_coherent s.slots s.payloads ih))
  | tailStep s decode settingStop g _ ih =>
      exact tailGo_coherent decode settingStop g s.slots s.payloads 0 ih

/-- C3 (amended): in every reachable state, for every slot index, the
slot is `Busy` iff its payload is `Busy(_)` or `Done(_)` (in particular a
`Done` payload implies a `Busy` slot), and a payload of `Empty` implies
the slot is `Idle` or `Wait`.  The claim's first clause — slot `Busy` iff
payload `Busy(_)` — fails in the one-tick window between phase G writing
`Done` and the next admission pass reaping it; see the counterexample. -/
theorem slot_payload_coherence {σ : Type} (B mrb : Nat) (s : SchedState σ)
    (h : Reachable B mrb s) : CoherentAmended s :=
  reachableCoherentAux B mrb s h

/-- Witness for C3 at a concrete reachable state (the `Done` window). -/
theorem slot_payload_coherence_witness : CoherentAmended doneWindowState :=
  slot_payload_coherence 1 1 doneWindowState
    (by
      unfold doneWindowState
      exact Reachable.tailStep _ _ _ _ (Reachable.admitStep _ _ _ _
        (Reachable.queueStep _ _ _ _ _ Reachable.init)))

/-- C3, counterexample: in the reachable state where a request has just
finished (payload `Done`, slot still `Busy`, awaiting the next reap), the
claimed invariant "slot `Busy` iff payload `Busy(_)`" fails: the slot is
`Busy` but the payload is `Done`, not `Busy`. -/
theorem slot_payload_claim_counterexample :
    Reachable 1 1 doneWindowState ∧
    doneWindowState.slots = [SlotState.Busy] ∧
    doneWindowState.payloads.map Payload.isDone = [true] ∧
    ¬ CoherentClaim doneWindowState := by
  refine ⟨?_, by decide, by decide, ?_⟩
  · unfold doneWindowState
    exact Reachable.tailStep _ _ _ _ (Reachable.admitStep _ _ _ _
      (Reachable.queueStep _ _ _ _ _ Reachable.init))
  · intro hco
    unfold CoherentClaim at hco
    obtain ⟨c, hp⟩ : ∃ c, doneWindowState.payloads = [Payload.Done c] := ⟨_, rfl⟩
    have hs : doneWindowState.slots = [SlotState.Busy] := by decide
    rw [hs, hp] at hco
    cases hco with
    | cons hpair _ =>
        have h1 := hpair.1.1 rfl
        simp [Payload.isBusy] at h1

/-! ### The concurrency budget (claim C7) -/

theorem queue_payloads (freshB : σ) (backFn : Nat → σ) (now : Nat) (s : SchedState σ)
    (context : GenerateContextM) :
    (queue freshB backFn now s context).2.payloads = s.payloads := by
  rcases List.eq_nil_or_concat (context.pfx ++ context.sfx) with hnil | ⟨stem, last, hconcat0⟩
  · have he : queue freshB backFn now s context = (SlotResult.Error, s) := by
      unfold queue
      rw [hnil]
      rfl
    rw [he]
  · have hconcat : context.pfx ++ context.sfx = stem ++ [last] := by
      rw [hconcat0, List.concat_eq_append]
    have hq := queue_eq_queueWith freshB backFn now s context stem last hconcat
    cases hch : queueChoice now s.slots stem with
    | none =>
        rw [hq, queueWith_none freshB backFn now s context stem last hch]
    | some cd =>
        obtain ⟨ch, d⟩ := cd
        obtain ⟨content, since, hidle, hclass, hd⟩ :=
          queueChoice_batch_idle now s.slots stem ch d hch
        cases ch with
        | Continue batch k =>
            rw [hq, queueWith_continue freshB backFn now s context stem last batch k d hch]
        | Empty batch =>
            rw [hq, queueWith_empty freshB backFn now s context stem last batch d hch]
        | Back batch =>
            rw [hq, queueWith_back freshB backFn now s context stem last batch d
              content since hch hidle]

theorem reachableCountAux {σ : Type} (B mrb : Nat) (s : SchedState σ)
    (h : Reachable B mrb s) : countBusy s.payloads ≤ mrb := by
  induction h with
  | init =>
      unfold initState
      simp [countBusy_replicate_empty]
  | queueStep s freshB backFn now context _ ih =>
      rw [queue_payloads freshB backFn now s context]
      exact ih
  | admitStep s backFn embedFn now hprev ih =>
      have hco := reachableCoherentAux B mrb s hprev
      unfold CoherentAmended at hco
      have hlen0 : s.payloads.length = s.slots.length := (List.Forall₂.length_eq hco).symm
      have hco2 : List.Forall₂ cohereAmended s.slots
          (resizePayloads s.slots.length s.payloads) := by
        rw [resizePayloads_self _ _ hlen0]
        exact hco
      have hkd := killDead_coherent s.slots (resizePayloads s.slots.length s.payloads) hco2
      have hreap := reapAll_coherent backFn embedFn now 0 s.slots
        (killDead s.slots (resizePayloads s.slots.length s.payloads)) s.cache hkd
      have hwaitfree : List.Forall₂ (fun (slot : SlotState) (p : Payload) =>
          slot.isWait = true → p.isBusy = false)
          (reapAll backFn embedFn now 0 s.slots
            (killDead s.slots (resizePayloads s.slots.length s.payloads)) s.cache).1
          (reapAll backFn embedFn now 0 s.slots
            (killDead s.slots (resizePayloads s.slots.length s.payloads)) s.cache).2.1 := by
        refine List.Forall₂.imp ?_ hreap
        intro slot p hc hw
        by_contra hb
        have hbusy : p.isBusy = true := by
          cases hpb : p.isBusy
          · exact absurd hpb hb
          · rfl
        have hsb := hc.1.2 (Or.inl hbusy)
        rw [hsb] at hw
        exact absurd hw (by decide)
      have hplen : (reapAll backFn embedFn now 0 s.slots
          (killDead s.slots (resizePayloads s.slots.length s.payloads)) s.cache).2.1.length =
          (reapAll backFn embedFn now 0 s.slots
            (killDead s.slots (resizePayloads s.slots.length s.payloads)) s.cache).1.length :=
        (List.Forall₂.length_eq hreap).symm
      have hocc : countBusy (reapAll backFn embedFn now 0 s.slots
          (killDead s.slots (resizePayloads s.slots.length s.payloads)) s.cache).2.1 ≤ mrb := by
        have hkl : (killDead s.slots (resizePayloads s.slots.length s.payloads)).length =
            s.slots.length := by
          rw [killDead_length, resizePayloads_length]
          omega
        rw [reapAll_countBusy backFn embedFn now 0 s.slots _ s.cache hkl]
        have h1 := killDead_countBusy_le s.slots (resizePayloads s.slots.length s.payloads)
        have h2 := resizePayloads_countBusy_le s.slots.length s.payloads
        omega
      show countBusy (promote (reapAll backFn embedFn now 0 s.slots
          (killDead s.slots (resizePayloads s.slots.length s.payloads)) s.cache).1
        (reapAll backFn embedFn now 0 s.slots
          (killDead s.slots (resizePayloads s.slots.length s.payloads)) s.cache).2.1
        (mrb - min mrb (countBusy (reapAll backFn embedFn now 0 s.slots
          (killDead s.slots (resizePayloads s.slots.length s.payloads)) s.cache).2.1)) 0).2.1
        ≤ mrb
    
      rw [promote_countBusy _ _ _ 0 hplen hwaitfree]
      omega
  | tailStep s decode settingStop g _ ih =>
      have := tailGo_countBusy_le decode settingStop g 0 s.payloads
      show countBusy (tailGo decode settingStop g 0 s.payloads).1 ≤ mrb
      omega

/-- C7: in every reachable state the number of `Busy` payloads is at most
`max_runtime_batch`; and in phase B of `process`, with `occ` busy
payloads after reaping and `remain = mrb − min mrb occ` (saturating
`max(0, mrb − occ)`), the promotion loop promotes exactly
`min remain #Wait` slots — the `Wait` slots of lowest index, scanned in
slot-index order — emitting `Token::Start` for each, leaving
`occ + min remain #Wait` busy payloads; the events `process` sends in its
admission phase are exactly the reap events followed by those `Start`s. -/
theorem promote_budget {σ : Type} (B mrb : Nat) (s : SchedState σ)
    (h : Reachable B mrb s) (backFn : Nat → σ) (embedFn : Nat → List Int) (now : Nat) :
    countBusy s.payloads ≤ mrb ∧
    (let r := reapAll backFn embedFn now 0 s.slots
        (killDead s.slots (resizePayloads s.slots.length s.payloads)) s.cache
     let occ := countBusy r.2.1
     let remain := mrb - min mrb occ
     (promote r.1 r.2.1 remain 0).2.2 =
        ((waitIndices r.1 0).take remain).map (fun i => (i, Token.Start)) ∧
     countBusy (promote r.1 r.2.1 remain 0).2.1 =
        occ + min remain (waitIndices r.1 0).length ∧
     (processAdmit mrb backFn embedFn now s).2 =
        r.2.2.2 ++ (promote r.1 r.2.1 remain 0).2.2 ∧
     countBusy (processAdmit mrb backFn embedFn now s).1.payloads ≤ mrb) := by
  have hco := reachableCoherentAux B mrb s h
  unfold CoherentAmended at hco
  have hcount := reachableCountAux B mrb s h
  have hlen0 : s.payloads.length = s.slots.length := (List.Forall₂.length_eq hco).symm
  have hco2 : List.Forall₂ cohereAmended s.slots
      (resizePayloads s.slots.length s.payloads) := by
    rw [resizePayloads_self _ _ hlen0]
    exact hco
  have hreap := reapAll_coherent backFn embedFn now 0 s.slots
    (killDead s.slots (resizePayloads s.slots.length s.payloads)) s.cache
    (killDead_coherent s.slots (resizePayloads s.slots.length s.payloads) hco2)
  have hplen : (reapAll backFn embedFn now 0 s.slots
      (killDead s.slots (resizePayloads s.slots.length s.payloads)) s.cache).2.1.length =
      (reapAll backFn embedFn now 0 s.slots
        (killDead s.slots (resizePayloads s.slots.length s.payloads)) s.cache).1.length :=
    (List.Forall₂.length_eq hreap).symm
  have hwaitfree : List.Forall₂ (fun (slot : SlotState) (p : Payload) =>
      slot.isWait = true → p.isBusy = false)
      (reapAll backFn embedFn now 0 s.slots
        (killDead s.slots (resizePayloads s.slots.length s.payloads)) s.cache).1
      (reapAll backFn embedFn now 0 s.slots
        (killDead s.slots (resizePayloads s.slots.length s.payloads)) s.cache).2.1 := by
    refine List.Forall₂.imp ?_ hreap
    intro slot p hc hw
    by_contra hb
    have hbusy : p.isBusy = true := by
      cases hpb : p.isBusy
      · exact absurd hpb hb
      · rfl
    have hsb := hc.1.2 (Or.inl hbusy)
    rw [hsb] at hw
    exact absurd hw (by decide)
  have hocc : countBusy (reapAll backFn embedFn now 0 s.slots
      (killDead s.slots (resizePayloads s.slots.length s.payloads)) s.cache).2.1 ≤ mrb := by
    have hkl : (killDead s.slots (resizePayloads s.slots.length s.payloads)).length =
        s.slots.length := by
      rw [killDead_length, resizePayloads_length]
      omega
    rw [reapAll_countBusy backFn embedFn now 0 s.slots _ s.cache hkl]
    have h1 := killDead_countBusy_le s.slots (resizePayloads s.slots.length s.payloads)
    have h2 := resizePayloads_countBusy_le s.slots.length s.payloads
    omega
  refine ⟨hcount, ?_⟩
  dsimp only
  refine ⟨promote_events _ _ _ 0 hplen, promote_countBusy _ _ _ 0 hplen hwaitfree, rfl, ?_⟩
  show countBusy (promote (reapAll backFn embedFn now 0 s.slots
      (killDead s.slots (resizePayloads s.slots.length s.payloads)) s.cache).1
    (reapAll backFn embedFn now 0 s.slots
      (killDead s.slots (resizePayloads s.slots.length s.payloads)) s.cache).2.1
    (mrb - min mrb (countBusy (reapAll backFn embedFn now 0 s.slots
      (killDead s.slots (resizePayloads s.slots.length s.payloads)) s.cache).2.1)) 0).2.1
    ≤ mrb
  rw [promote_countBusy _ _ _ 0 hplen hwaitfree]
  omega

/-- Witness for C7 at a concrete reachable state: the invariant and the
promotion characterization at the `Done`-window state. -/
theorem promote_budget_witness :
    countBusy doneWindowState.payloads ≤ 1 :=
  (promote_budget 1 1 doneWindowState
    (by
      unfold doneWindowState
      exact Reachable.tailStep _ _ _ _ (Reachable.admitStep _ _ _ _
        (Reachable.queueStep _ _ _ _ _ Reachable.init)))
    (fun _ => 0) (fun _ => []) 0).1

/-! ### Per-request event traces (claim C8) -/

theorem slotUpdate_cases (decode : Nat → List Nat) (settingStop : List (List Nat))
    (disc : Bool) (context : GenerateContextM) (token : Option Nat) (remaining : Nat) :
    (∃ ctx2, slotUpdate decode settingStop disc context token remaining = (ctx2, [], false)) ∨
    (∃ ctx2 w, slotUpdate decode settingStop disc context token remaining =
      (ctx2, [Token.Token w], false)) ∨
    (disc = true ∧ ∃ ctx2, slotUpdate decode settingStop disc context token remaining =
      (ctx2, [], true)) ∨
    (disc = false ∧ ∃ ctx2 r c, slotUpdate decode settingStop disc context token remaining =
      (ctx2, [Token.Stop r c, Token.Done], true)) ∨
    (disc = false ∧ ∃ ctx2 w r c, slotUpdate decode settingStop disc context token remaining =
      (ctx2, [Token.Token w, Token.Stop r c, Token.Done], true)) := by
  cases token with
  | none => exact Or.inl ⟨_, rfl⟩
  | some t =>
      cases disc with
      | true =>
          refine Or.inr (Or.inr (Or.inl ⟨rfl, ?_⟩))
          exact ⟨_, rfl⟩
      | false =>
          unfold slotUpdate
          dsimp only
          split
          · rename_i hfalse
            exact absurd hfalse (by decide)
          · split
            · exact Or.inr (Or.inr (Or.inr (Or.inr ⟨rfl, _, _, _, _, rfl⟩)))
            · split
              · exact Or.inr (Or.inr (Or.inr (Or.inl ⟨rfl, _, _, _, rfl⟩)))
              · split
                · exact Or.inr (Or.inl ⟨_, _, rfl⟩)
                · exact Or.inl ⟨_, rfl⟩

theorem slotUpdate_request (decode : Nat → List Nat) (settingStop : List (List Nat))
    (disc : Bool) (context : GenerateContextM) (token : Option Nat) (remaining : Nat) :
    (slotUpdate decode settingStop disc context token remaining).1.request =
      context.request := by
  cases token with
  | none => rfl
  | some t =>
      cases disc with
      | true => rfl
      | false =>
          unfold slotUpdate
          dsimp only
          split
          · rename_i h
            exact absurd h (by decide)
          · split
            · rfl
            · split
              · rfl
              · split
                · rfl
                · rfl

theorem runTicks_disconnected (decode : Nat → List Nat) (settingStop : List (List Nat))
    (embedVec : List Int) :
    ∀ (ticks : List (Option Nat × Nat × Bool)) (context : GenerateContextM),
      (∀ t ∈ ticks, t.2.2 = true) →
      runTicks decode settingStop embedVec true context ticks = [] := by
  intro ticks
  induction ticks with
  | nil => intro context _; rfl
  | cons t rest ih =>
      intro context hall
      have ht : t.2.2 = true := hall t (List.mem_cons_self _ _)
      obtain ⟨tok, rem, d⟩ := t
      simp only at ht
      subst ht
      cases tok with
      | none =>
          have hstep : runTicks decode settingStop embedVec true context
              ((none, rem, true) :: rest) =
              runTicks decode settingStop embedVec true
                (slotUpdate decode settingStop true context none rem).1 rest := rfl
          rw [hstep]
          exact ih _ (fun t2 ht2 => hall t2 (List.mem_cons_of_mem _ ht2))
      | some tok =>
          have hstep : runTicks decode settingStop embedVec true context
              ((some tok, rem, true) :: rest) =
              (if (slotUpdate decode settingStop true context (some tok) rem).1.request.embed
                  && !true then [Token.Embed embedVec] else []) := rfl
          rw [hstep]
          simp

theorem runTicks_finish_shape (decode : Nat → List Nat) (settingStop : List (List Nat))
    (embedVec : List Int) :
    ∀ (ticks : List (Option Nat × Nat × Bool)) (context : GenerateContextM),
      (∀ t ∈ ticks, t.2.2 = false) →
      runFinishes decode settingStop context ticks = true →
      ∃ pre r c,
        runTicks decode settingStop embedVec false context ticks =
          pre ++ [Token.Stop r c, Token.Done] ++
            (if context.request.embed then [Token.Embed embedVec] else []) ∧
        ∀ e ∈ pre, ∃ w, e = Token.Token w := by
  intro ticks
  induction ticks with
  | nil =>
      intro context _ hfin
      simp [runFinishes] at hfin
  | cons t rest ih =>
      intro context hall hfin
      have ht : t.2.2 = false := hall t (List.mem_cons_self _ _)
      obtain ⟨tok, rem, d⟩ := t
      simp only at ht
      subst ht
      have hstep : runTicks decode settingStop embedVec false context
          ((tok, rem, false) :: rest) =
          (if (slotUpdate decode settingStop false context tok rem).2.2 then
            (slotUpdate decode settingStop false context tok rem).2.1 ++
              (if (slotUpdate decode settingStop false context tok rem).1.request.embed
                  && !false then [Token.Embed embedVec] else [])
          else
            (slotUpdate decode settingStop false context tok rem).2.1 ++
              runTicks decode settingStop embedVec false
                (slotUpdate decode settingStop false context tok rem).1 rest) := rfl
      have hfin2 : ((slotUpdate decode settingStop false context tok rem).2.2 ||
          runFinishes decode settingStop
            (slotUpdate decode settingStop false context tok rem).1 rest) = true := hfin
      have hreq := slotUpdate_request decode settingStop false context tok rem
      have hrest : ∀ t2 ∈ rest, t2.2.2 = false :=
        fun t2 ht2 => hall t2 (List.mem_cons_of_mem _ ht2)
      rw [hstep]
      rcases slotUpdate_cases decode settingStop false context tok rem with
        ⟨ctx2, heq⟩ | ⟨ctx2, w, heq⟩ | ⟨hd3, _⟩ | ⟨_, ctx2, r, c, heq⟩ |
        ⟨_, ctx2, w, r, c, heq⟩
      · have hdone : (slotUpdate decode settingStop false context tok rem).2.2 = false := by
          rw [heq]
        have hev : (slotUpdate decode settingStop false context tok rem).2.1 = [] := by
          rw [heq]
        have hctx : (slotUpdate decode settingStop false context tok rem).1 = ctx2 := by
          rw [heq]
        rw [hdone, hev, hctx]
        simp only [Bool.false_eq_true, if_false, List.nil_append]
        rw [hdone, hctx] at hfin2
        simp only [Bool.false_or] at hfin2
        rw [hctx] at hreq
        obtain ⟨pre, r, c, hshape, hpre⟩ := ih ctx2 hrest hfin2
        rw [hreq] at hshape
        exact ⟨pre, r, c, hshape, hpre⟩
      · have hdone : (slotUpdate decode settingStop false context tok rem).2.2 = false := by
          rw [heq]
        have hev : (slotUpdate decode settingStop false context tok rem).2.1 =
            [Token.Token w] := by
          rw [heq]
        have hctx : (slotUpdate decode settingStop false context tok rem).1 = ctx2 := by
          rw [heq]
        rw [hdone, hev, hctx]
        simp only [Bool.false_eq_true, if_false]
        rw [hdone, hctx] at hfin2
        simp only [Bool.false_or] at hfin2
        rw [hctx] at hreq
        obtain ⟨pre, r, c, hshape, hpre⟩ := ih ctx2 hrest hfin2
        rw [hreq] at hshape
        refine ⟨Token.Token w :: pre, r, c, ?_, ?_⟩
        · rw [hshape]
          simp
        · intro e he
          rcases List.mem_cons.1 he with he | he
          · exact ⟨w, he⟩
          · exact hpre e he
      · exact absurd hd3 (by decide)
      · have hdone : (slotUpdate decode settingStop false context tok rem).2.2 = true := by
          rw [heq]
        have hev : (slotUpdate decode settingStop false context tok rem).2.1 =
            [Token.Stop r c, Token.Done] := by
          rw [heq]
        have hctx : (slotUpdate decode settingStop false context tok rem).1 = ctx2 := by
          rw [heq]
        rw [hdone, hev, hctx]
        rw [hctx] at hreq
        refine ⟨[], r, c, ?_, by intro e he; cases he⟩
        simp [hreq]
      · have hdone : (slotUpdate decode settingStop false context tok rem).2.2 = true := by
          rw [heq]
        have hev : (slotUpdate decode settingStop false context tok rem).2.1 =
            [Token.Token w, Token.Stop r c, Token.Done] := by
          rw [heq]
        have hctx : (slotUpdate decode settingStop false context tok rem).1 = ctx2 := by
          rw [heq]
        rw [hdone, hev, hctx]
        rw [hctx] at hreq
        refine ⟨[Token.Token w], r, c, ?_, ?_⟩
        · simp [hreq]
        · intro e he
          rcases List.mem_cons.1 he with he | he
          · exact ⟨w, he⟩
          · cases he

theorem runTicks_truncate (decode : Nat → List Nat) (settingStop : List (List Nat))
    (embedVec : List Int) :
    ∀ (pre : List (Option Nat × Nat × Bool)) (context : GenerateContextM)
      (tok rem : Nat) (post : List (Option Nat × Nat × Bool)),
      (∀ t ∈ pre, t.2.2 = false) →
      runFinishes decode settingStop context pre = false →
      runTicks decode settingStop embedVec true context
          (pre ++ (some tok, rem, true) :: post) =
        runTicks decode settingStop embedVec true context pre := by
  intro pre
  induction pre with
  | nil =>
      intro context tok rem post _ _
      simp only [List.nil_append]
      have hstep : runTicks decode settingStop embedVec true context
          ((some tok, rem, true) :: post) =
          [] ++ (if ((slotUpdate decode settingStop true context (some tok) rem).1.request.embed
              && !true) then [Token.Embed embedVec] else []) := rfl
      rw [hstep]
      simp [runTicks]
  | cons t pre2 ih =>
      intro context tok rem post hall hfin
      have ht : t.2.2 = false := hall t (List.mem_cons_self _ _)
      obtain ⟨tk, rm, d⟩ := t
      simp only at ht
      subst ht
      have hfin2 : ((slotUpdate decode settingStop false context tk rm).2.2 ||
          runFinishes decode settingStop
            (slotUpdate decode settingStop false context tk rm).1 pre2) = false := hfin
      rw [Bool.or_eq_false_iff] at hfin2
      obtain ⟨hdone, hfin3⟩ := hfin2
      have hstepL : runTicks decode settingStop embedVec true context
          ((tk, rm, false) :: (pre2 ++ (some tok, rem, true) :: post)) =
          (if (slotUpdate decode settingStop false context tk rm).2.2 then
            (slotUpdate decode settingStop false context tk rm).2.1 ++
              (if (slotUpdate decode settingStop false context tk rm).1.request.embed
                  && !true then [Token.Embed embedVec] else [])
          else
            (slotUpdate decode settingStop false context tk rm).2.1 ++
              runTicks decode settingStop embedVec true
                (slotUpdate decode settingStop false context tk rm).1
                (pre2 ++ (some tok, rem, true) :: post)) := rfl
      have hstepR : runTicks decode settingStop embedVec true context
          ((tk, rm, false) :: pre2) =
          (if (slotUpdate decode settingStop false context tk rm).2.2 then
            (slotUpdate decode settingStop false context tk rm).2.1 ++
              (if (slotUpdate decode settingStop false context tk rm).1.request.embed
                  && !true then [Token.Embed embedVec] else [])
          else
            (slotUpdate decode settingStop false context tk rm).2.1 ++
              runTicks decode settingStop embedVec true
                (slotUpdate decode settingStop false context tk rm).1 pre2) := rfl
      rw [List.cons_append, hstepL, hstepR, hdone]
      simp only [Bool.false_eq_true, if_false]
      rw [ih (slotUpdate decode settingStop false context tk rm).1 tok rem post
        (fun t2 ht2 => hall t2 (List.mem_cons_of_mem _ ht2)) hfin3]

/-- C8: For every request admitted into a slot, the delivered event
stream starts with `Token::Start` before any other event (when the sink
is not already disconnected); if every tick is disconnected no event at
all is delivered; if the sink never disconnects and the run finishes,
the stream is `Start`, then `Token::Token` words, then exactly one
`Token::Stop` immediately followed by `Token::Done` — but these are the
last two events only when `request.embed` is false, since an embedding
request receives a trailing `Token::Embed` at the reap (run.rs:460–463);
and from the first disconnected sampling tick on, no further events are
delivered. -/
theorem request_trace_amended (decode : Nat → List Nat) (settingStop : List (List Nat))
    (embedVec : List Int) (context : GenerateContextM)
    (ticks : List (Option Nat × Nat × Bool)) :
    ((∀ t ∈ ticks, t.2.2 = true) →
      requestTrace decode settingStop embedVec true context ticks true = []) ∧
    (∀ (discStart discReap : Bool), discStart = false →
      (requestTrace decode settingStop embedVec discStart context ticks discReap).head? =
        some Token.Start) ∧
    ((∀ t ∈ ticks, t.2.2 = false) →
      runFinishes decode settingStop context ticks = true →
      ∃ pre r c,
        requestTrace decode settingStop embedVec false context ticks false =
          pre ++ [Token.Stop r c, Token.Done] ++
            (if context.request.embed then [Token.Embed embedVec] else []) ∧
        ∀ e ∈ pre, e = Token.Start ∨ ∃ w, e = Token.Token w) ∧
    (∀ (pre post : List (Option Nat × Nat × Bool)) (tok rem : Nat),
      ticks = pre ++ (some tok, rem, true) :: post →
      (∀ t ∈ pre, t.2.2 = false) →
      runFinishes decode settingStop context pre = false →
      requestTrace decode settingStop embedVec false context ticks true =
        requestTrace decode settingStop embedVec false context pre true) := by
  refine ⟨?_, ?_, ?_, ?_⟩
  · intro hall
    unfold requestTrace
    rw [runTicks_disconnected decode settingStop embedVec ticks context hall]
    rfl
  · intro discStart discReap h
    subst h
    rfl
  · intro hall hfin
    obtain ⟨pre, r, c, hshape, hpre⟩ :=
      runTicks_finish_shape decode settingStop embedVec ticks context hall hfin
    refine ⟨Token.Start :: pre, r, c, ?_, ?_⟩
    · unfold requestTrace
      rw [hshape]
      simp
    · intro e he
      rcases List.mem_cons.1 he with he | he
      · exact Or.inl he
      · exact Or.inr (hpre e he)
  · intro pre post tok rem hticks hall hfin
    subst hticks
    unfold requestTrace
    rw [runTicks_truncate decode settingStop embedVec pre context tok rem post hall hfin]

/-- Witness for C8: the single-slot one-token run of `exampleCtx`
finishes by length; its delivered trace is `Start`, then `Stop`/`Done`
(with no trailing `Embed`, as `exampleCtx.request.embed` is false). -/
theorem request_trace_amended_witness :
    ∃ pre r c,
      requestTrace (fun _ => []) [] [] false exampleCtx [(some 5, 0, false)] false =
        pre ++ [Token.Stop r c, Token.Done] ++
          (if exampleCtx.request.embed then [Token.Embed []] else []) ∧
      ∀ e ∈ pre, e = Token.Start ∨ ∃ w, e = Token.Token w :=
  (request_trace_amended (fun _ => []) [] [] exampleCtx [(some 5, 0, false)]).2.2.1
    (by decide) (by decide)

/-- Counterexample to C8 as stated: for an `embed = true` request the
reap appends `Token::Embed` after `Token::Done` (run.rs:460–463), so
`Stop`/`Done` are not the last two events of the stream. -/
theorem request_trace_counterexample :
    (requestTrace (fun _ => []) [] [] false
        { exampleCtx with request := { exampleCtx.request with embed := true } }
        [(some 5, 0, false)] false).getLast? = some (Token.Embed []) ∧
    ¬ ∃ (pre : List Token) (r : FinishReason) (c : TokenCounter),
      requestTrace (fun _ => []) [] [] false
          { exampleCtx with request := { exampleCtx.request with embed := true } }
          [(some 5, 0, false)] false =
        pre ++ [Token.Stop r c, Token.Done] := by
  have h1 : (requestTrace (fun _ => []) [] [] false
      { exampleCtx with request := { exampleCtx.request with embed := true } }
      [(some 5, 0, false)] false).getLast? = some (Token.Embed []) := by rfl
  refine ⟨h1, ?_⟩
  rintro ⟨pre, r, c, heq⟩
  rw [heq] at h1
  have h2 : pre ++ [Token.Stop r c, Token.Done] =
      (pre ++ [Token.Stop r c]) ++ [Token.Done] := by
    simp
  rw [h2, List.getLast?_concat] at h1
  simp at h1
